import Mathlib

/-!
# LS-8 emulator (`ls8/cpu.c`): shallow embedding and verified properties

The machine of `cpu.c` is embedded as pure functions on an explicit state.
Bytes (`unsigned char`) are natural numbers kept below 256 by an explicit
`% 256` at every store.  C operations without a defined result (an index
outside `reg[8]`, `%` by zero, a shift outside the width of `int`) make the
embedded function return `Except.error`.
-/

namespace LS8

/-! ## Data model -/

/-- Modelled from the spec: `struct cpu` is declared in `cpu.h`, which is absent.
The spec's data model gives 256 memory cells and 8 registers of 8 bits, and a
byte each for PC, SP and FL.  Arrays are functions from the index; only the
indices below 8 (`reg`) and below 256 (`ram`) are ever accessed. -/
structure cpu where
  PC : Nat
  FL : Nat
  SP : Nat
  reg : Nat → Nat
  ram : Nat → Nat

/-- Every field of the aggregate holds an `unsigned char`. -/
def cpu.WF (c : cpu) : Prop :=
  c.PC < 256 ∧ c.FL < 256 ∧ c.SP < 256 ∧ (∀ r, c.reg r < 256) ∧ (∀ a, c.ram a < 256)

/-- Executions of C that have no defined result. -/
inductive Fault where
  | regIndex
  | divByZero
  | shiftRange
  deriving DecidableEq, Repr

/-- The operations named by `enum alu_op`. -/
inductive alu_op where
  | ALU_ADD | ALU_MUL | ALU_MOD | ALU_CMP | ALU_AND
  | ALU_NOT | ALU_OR | ALU_XOR | ALU_SHL | ALU_SHR
  deriving DecidableEq, Repr

/-- The `case` labels of the `switch (IR)` of `cpu_run`, in source order. -/
inductive Instr where
  | LDI | PRN | PUSH | POP | MUL | ADD | MOD | CMP | AND | NOT | OR | XOR
  | SHL | SHR | CALL | RET | JMP | JEQ | JNE | JGE | JGT | JLE | JLT | HLT
  deriving DecidableEq, Repr

/-- Modelled from the spec: the opcode constants are defined in `cpu.h`, which
is absent, so their byte values are a parameter of the engine. -/
structure Opcodes where
  LDI : Nat
  PRN : Nat
  PUSH : Nat
  POP : Nat
  MUL : Nat
  ADD : Nat
  MOD : Nat
  CMP : Nat
  AND : Nat
  NOT : Nat
  OR : Nat
  XOR : Nat
  SHL : Nat
  SHR : Nat
  CALL : Nat
  RET : Nat
  JMP : Nat
  JEQ : Nat
  JNE : Nat
  JGE : Nat
  JGT : Nat
  JLE : Nat
  JLT : Nat
  HLT : Nat

/-- The labels of `switch (IR)` with the case each one selects, in source order. -/
def Opcodes.cases (o : Opcodes) : List (Nat × Instr) :=
  [(o.LDI, .LDI), (o.PRN, .PRN), (o.PUSH, .PUSH), (o.POP, .POP), (o.MUL, .MUL),
   (o.ADD, .ADD), (o.MOD, .MOD), (o.CMP, .CMP), (o.AND, .AND), (o.NOT, .NOT),
   (o.OR, .OR), (o.XOR, .XOR), (o.SHL, .SHL), (o.SHR, .SHR), (o.CALL, .CALL),
   (o.RET, .RET), (o.JMP, .JMP), (o.JEQ, .JEQ), (o.JNE, .JNE), (o.JGE, .JGE),
   (o.JGT, .JGT), (o.JLE, .JLE), (o.JLT, .JLT), (o.HLT, .HLT)]

/-- Number of operand bytes an instruction's case reads: `operand_b` is used by
the two-operand cases, `operand_a` alone by the one-operand cases. -/
def Instr.operands : Instr → Nat
  | .LDI | .MUL | .ADD | .MOD | .CMP | .AND | .OR | .XOR | .SHL | .SHR => 2
  | .PRN | .PUSH | .POP | .NOT | .CALL | .JMP
  | .JEQ | .JNE | .JGE | .JGT | .JLE | .JLT => 1
  | .RET | .HLT => 0

/-- Modelled from the spec: what is known of the absent opcode table.  The
labels of a C `switch` are pairwise distinct; each is a byte; and (glossary,
"Opcode") the top two bits of an opcode encode its operand count. -/
def Opcodes.WF (o : Opcodes) : Prop :=
  (o.cases.map Prod.fst).Nodup ∧ ∀ p ∈ o.cases, p.1 < 256 ∧ p.1 >>> 6 = p.2.operands

instance (o : Opcodes) : Decidable o.WF := by
  unfold Opcodes.WF; infer_instance

/-- The case of `switch (IR)` selected by the byte `IR`; `none` is `default`. -/
def dispatch (o : Opcodes) (IR : Nat) : Option Instr :=
  o.cases.lookup IR

/-- The LS-8 instruction set's opcode values, an instance of the table. -/
def ls8 : Opcodes where
  LDI := 0b10000010
  PRN := 0b01000111
  PUSH := 0b01000101
  POP := 0b01000110
  MUL := 0b10100010
  ADD := 0b10100000
  MOD := 0b10100100
  CMP := 0b10100111
  AND := 0b10101000
  NOT := 0b01101001
  OR := 0b10101010
  XOR := 0b10101011
  SHL := 0b10101100
  SHR := 0b10101101
  CALL := 0b01010000
  RET := 0b00010001
  JMP := 0b01010100
  JEQ := 0b01010101
  JNE := 0b01010110
  JGE := 0b01011010
  JGT := 0b01010111
  JLE := 0b01011001
  JLT := 0b01011000
  HLT := 0b00000001

/-! ## RAM interface and helpers -/

/-- Function `cpu_ram_read`: the `unsigned char` parameter reduces the address. -/
def cpu_ram_read (c : cpu) (address : Nat) : Nat :=
  c.ram (address % 256)

/-- Function `cpu_ram_write`: both `unsigned char` parameters are reduced. -/
def cpu_ram_write (c : cpu) (value address : Nat) : cpu :=
  { c with ram := fun a => if a = address % 256 then value % 256 else c.ram a }

/-- Function `cpu_PUSH`: `SP--` on a byte, then a write at the new SP. -/
def cpu_PUSH (c : cpu) (value_to_add : Nat) : cpu :=
  let c1 := { c with SP := (c.SP + 255) % 256 }
  cpu_ram_write c1 value_to_add c1.SP

/-- Function `cpu_POP`: the byte read at SP, and the state after `SP++`. -/
def cpu_POP (c : cpu) : Nat × cpu :=
  let return_value := cpu_ram_read c c.SP
  (return_value, { c with SP := (c.SP + 1) % 256 })

/-- Read of `cpu->reg[r]`; the array has 8 elements. -/
def reg_get (c : cpu) (r : Nat) : Except Fault Nat :=
  if r < 8 then .ok (c.reg r) else .error .regIndex

/-- Store `cpu->reg[r] = v`, the value converted to `unsigned char`. -/
def reg_set (c : cpu) (r v : Nat) : Except Fault cpu :=
  if r < 8 then .ok { c with reg := fun i => if i = r then v % 256 else c.reg i }
  else .error .regIndex

/-- Function `cpu_JMP`: `PC = reg[new_address] - 2` converted to a byte. -/
def cpu_JMP (c : cpu) (new_address : Nat) : Except Fault cpu := do
  let t ← reg_get c new_address
  pure { c with PC := (t + 254) % 256 }

/-- Function `cpu_load` after the file has been parsed: each byte is written at
the next address, starting at 0. -/
def cpu_load_from (c : cpu) (address : Nat) : List Nat → cpu
  | [] => c
  | ret :: rest => cpu_load_from (cpu_ram_write c ret address) (address + 1) rest

/-- Function `cpu_load`, its parameter being the bytes parsed from the file. -/
def cpu_load (c : cpu) (bytes : List Nat) : cpu :=
  cpu_load_from c 0 bytes

/-! ## ALU -/

/-- Function `alu`.  Operands are promoted to a 32-bit `int`, and the result is
converted to `unsigned char` by the store into `reg[regA]`. -/
def alu (c : cpu) (op : alu_op) (regA regB : Nat) : Except Fault cpu :=
  match op with
  | .ALU_ADD => do
      let x ← reg_get c regA
      let y ← reg_get c regB
      reg_set c regA (x + y)
  | .ALU_MUL => do
      let x ← reg_get c regA
      let y ← reg_get c regB
      reg_set c regA (x * y)
  | .ALU_MOD => do
      let x ← reg_get c regA
      let y ← reg_get c regB
      if y = 0 then throw .divByZero else reg_set c regA (x % y)
  | .ALU_CMP => do
      let x ← reg_get c regA
      let y ← reg_get c regB
      if x = y then pure { c with FL := 0b00000001 }
      else if x < y then pure { c with FL := 0b00000100 }
      else pure { c with FL := 0b00000010 }
  | .ALU_AND => do
      let x ← reg_get c regA
      let y ← reg_get c regB
      reg_set c regA (x &&& y)
  | .ALU_NOT => do
      let x ← reg_get c regA
      reg_set c regA (255 - x)
  | .ALU_OR => do
      let x ← reg_get c regA
      let y ← reg_get c regB
      reg_set c regA (x ||| y)
  | .ALU_XOR => do
      let x ← reg_get c regA
      let y ← reg_get c regB
      reg_set c regA (x ^^^ y)
  | .ALU_SHL => do
      let x ← reg_get c regA
      let y ← reg_get c regB
      if 32 ≤ y ∨ 2 ^ 31 ≤ x * 2 ^ y then throw .shiftRange else reg_set c regA (x <<< y)
  | .ALU_SHR => do
      let x ← reg_get c regA
      let y ← reg_get c regB
      if 32 ≤ y then throw .shiftRange else reg_set c regA (x >>> y)

/-! ## Execution engine -/

/-- The variables of `cpu_run` that live across iterations of its loop, with
the machine aggregate and the lines written to standard output. -/
structure Loop where
  cpu : cpu
  running : Bool
  operand_a : Nat
  operand_b : Nat
  out : List String

/-- Steps 1 to 3 of the loop body: `IR`, `number_of_operands`, and the operand
variables, which keep their previous value when no operand byte is read. -/
def fetch (l : Loop) : Nat × Nat × Loop :=
  let IR := cpu_ram_read l.cpu l.cpu.PC
  let number_of_operands := IR >>> 6
  if number_of_operands = 2 then
    (IR, number_of_operands,
      { l with operand_a := cpu_ram_read l.cpu ((l.cpu.PC + 1) &&& 0xff),
               operand_b := cpu_ram_read l.cpu ((l.cpu.PC + 2) &&& 0xff) })
  else if number_of_operands = 1 then
    (IR, number_of_operands,
      { l with operand_a := cpu_ram_read l.cpu ((l.cpu.PC + 1) &&& 0xff) })
  else
    (IR, number_of_operands, l)

/-- A call `alu(cpu, op, regA, regB)` made from the loop. -/
def run_alu (l : Loop) (op : alu_op) (regA regB : Nat) : Except Fault Loop := do
  let c ← alu l.cpu op regA regB
  pure { l with cpu := c }

/-- A call `cpu_JMP(cpu, operand_a)` made from the loop. -/
def run_JMP (l : Loop) : Except Fault Loop := do
  let c ← cpu_JMP l.cpu l.operand_a
  pure { l with cpu := c }

/-- Steps 4 and 5 of the loop body: the `switch (IR)`. -/
def exec (l : Loop) : Option Instr → Except Fault Loop
  | some .LDI => do
      let c ← reg_set l.cpu l.operand_a l.operand_b
      pure { l with cpu := c }
  | some .PRN => do
      let v ← reg_get l.cpu l.operand_a
      pure { l with out := l.out ++ [toString v] }
  | some .PUSH => do
      let v ← reg_get l.cpu l.operand_a
      pure { l with cpu := cpu_PUSH l.cpu v }
  | some .POP => do
      let r := cpu_POP l.cpu
      let c ← reg_set r.2 l.operand_a r.1
      pure { l with cpu := c }
  | some .MUL => run_alu l .ALU_MUL l.operand_a l.operand_b
  | some .ADD => run_alu l .ALU_ADD l.operand_a l.operand_b
  | some .MOD =>
      if l.operand_b = 0 then
        pure { l with out := l.out ++ ["Cannot divide by zero. Halting -->|"],
                      running := false }
      else run_alu l .ALU_MOD l.operand_a l.operand_b
  | some .CMP => run_alu l .ALU_CMP l.operand_a l.operand_b
  | some .AND => run_alu l .ALU_AND l.operand_a l.operand_b
  | some .NOT => run_alu l .ALU_NOT l.operand_a 48
  | some .OR => run_alu l .ALU_OR l.operand_a l.operand_b
  | some .XOR => run_alu l .ALU_XOR l.operand_a l.operand_b
  | some .SHL => run_alu l .ALU_SHL l.operand_a l.operand_b
  | some .SHR => run_alu l .ALU_SHR l.operand_a l.operand_b
  | some .CALL => run_JMP { l with cpu := cpu_PUSH l.cpu (l.cpu.PC + 1) }
  | some .RET =>
      let r := cpu_POP l.cpu
      pure { l with cpu := { r.2 with PC := r.1 } }
  | some .JMP => run_JMP l
  | some .JEQ => if l.cpu.FL = 1 then run_JMP l else pure l
  | some .JNE => if l.cpu.FL % 2 = 0 then run_JMP l else pure l
  | some .JGE => if l.cpu.FL = 1 ∨ l.cpu.FL = 4 then run_JMP l else pure l
  | some .JGT => if l.cpu.FL = 4 then run_JMP l else pure l
  | some .JLE => if l.cpu.FL = 2 ∨ l.cpu.FL = 0 then run_JMP l else pure l
  | some .JLT => if l.cpu.FL = 2 then run_JMP l else pure l
  | some .HLT => pure { l with running := false }
  | none => pure l

/-- Step 6 of the loop body: `PC = PC + number_of_operands + 1`, stored in a byte. -/
def advance (number_of_operands : Nat) (l : Loop) : Loop :=
  { l with cpu := { l.cpu with PC := (l.cpu.PC + number_of_operands + 1) % 256 } }

/-- One iteration of the `while (running)` loop of `cpu_run`. -/
def step (o : Opcodes) (l : Loop) : Except Fault Loop :=
  let f := fetch l
  match exec f.2.2 (dispatch o f.1) with
  | .ok l1 => .ok (advance f.2.1 l1)
  | .error e => .error e

/-- At most `fuel` iterations of the `while (running)` loop. -/
def loop (o : Opcodes) : Nat → Loop → Except Fault Loop
  | 0, l => .ok l
  | fuel + 1, l =>
      if l.running then
        match step o l with
        | .ok l1 => loop o fuel l1
        | .error e => .error e
      else .ok l

/-- Function `cpu_run`, bounded by `fuel` iterations.  `operand_a` and
`operand_b` are declared without an initialiser; `a0` and `b0` stand for
their indeterminate first values. -/
def cpu_run (o : Opcodes) (fuel : Nat) (c : cpu) (a0 b0 : Nat) : Except Fault Loop :=
  loop o fuel
    { cpu := { c with SP := c.reg 7 }, running := true,
      operand_a := a0, operand_b := b0, out := [] }

/-- Function `cpu_init`. -/
def cpu_init (c : cpu) : cpu :=
  { c with
    ram := fun _ => 0
    PC := 0
    FL := 0
    reg := fun i => if i = 7 then 0xF4 else 0 }

/-- A program image loaded at address 0 of a freshly initialised machine. -/
def boot (c : cpu) (image : List Nat) : cpu :=
  cpu_load (cpu_init c) image

/-- The byte value the table gives to an instruction. -/
def Opcodes.code (o : Opcodes) : Instr → Nat
  | .LDI => o.LDI | .PRN => o.PRN | .PUSH => o.PUSH | .POP => o.POP
  | .MUL => o.MUL | .ADD => o.ADD | .MOD => o.MOD | .CMP => o.CMP
  | .AND => o.AND | .NOT => o.NOT | .OR => o.OR | .XOR => o.XOR
  | .SHL => o.SHL | .SHR => o.SHR | .CALL => o.CALL | .RET => o.RET
  | .JMP => o.JMP | .JEQ => o.JEQ | .JNE => o.JNE | .JGE => o.JGE
  | .JGT => o.JGT | .JLE => o.JLE | .JLT => o.JLT | .HLT => o.HLT


/-! ## Concrete machines used as test inputs -/

/-- Memory holding the given bytes from address 0 on, and 0 elsewhere. -/
def ram_of (bytes : List Nat) : Nat → Nat :=
  fun a => bytes.getD a 0

/-- Register file holding the given values from register 0 on, and 0 elsewhere. -/
def reg_of (vals : List Nat) : Nat → Nat :=
  fun r => vals.getD r 0

/-- A running loop about to fetch at `pc`, with SP at the boot value 0xF4. -/
def loop_at (pc : Nat) (regs bytes : List Nat) : Loop :=
  { cpu := { PC := pc, FL := 0, SP := 0xF4, reg := reg_of regs, ram := ram_of bytes },
    running := true, operand_a := 0, operand_b := 0, out := [] }

/-- Program `MOD R0,R1` with R0 = 5 and R1 = 0: a zero divisor in a register
other than register 0. -/
def mod_zero_value : Loop :=
  loop_at 0 [5, 0] [ls8.MOD, 0, 1]

/-- Program `MOD R1,R0` with R1 = 7 and R0 = 3: a non-zero divisor held in
register 0. -/
def mod_by_reg0 : Loop :=
  loop_at 0 [3, 7] [ls8.MOD, 1, 0]

/-- Registers R0 = 200 and R1 = 100 in an otherwise zero machine. -/
def regs_200_100 : cpu :=
  { PC := 0, FL := 0, SP := 0xF4, reg := reg_of [200, 100], ram := ram_of [] }

/-- What is observed of a step: the fault, or `running`, PC, registers 0 and 1,
and the output. -/
def observe : Except Fault Loop → Except Fault (Bool × Nat × Nat × Nat × List String)
  | .ok l => .ok (l.running, l.cpu.PC, l.cpu.reg 0, l.cpu.reg 1, l.out)
  | .error e => .error e

/-- The flag condition under which each conditional jump calls `cpu_JMP`,
in the words of the specification (section 4.5, step 5). -/
def jump_taken : Instr → Nat → Prop
  | .JEQ, fl => fl = 0b001
  | .JNE, fl => fl % 2 = 0
  | .JGE, fl => fl = 0b001 ∨ fl = 0b100
  | .JGT, fl => fl = 0b100
  | .JLE, fl => fl = 0b010 ∨ fl = 0
  | .JLT, fl => fl = 0b010
  | _, _ => False

/-- Program `CMP R0,R1; JEQ R2` at address 0, about to execute the jump at
address 3 with the given flags; R2 = 9. -/
def jump_input ( op : Nat) (fl : Nat) : Loop :=
  { cpu := { PC := 3, FL := fl, SP := 0xF4, reg := reg_of [1, 2, 9],
             ram := ram_of [ls8.CMP, 0, 1, op, 2] },
    running := true, operand_a := 0, operand_b := 0, out := [] }

/-- The loop variables after step 3 of the loop body, for a given operand
count: the operand bytes read are those of `fetch`. -/
def read_operands (number_of_operands : Nat) (l : Loop) : Loop :=
  if number_of_operands = 2 then
    { l with operand_a := cpu_ram_read l.cpu (l.cpu.PC + 1),
             operand_b := cpu_ram_read l.cpu (l.cpu.PC + 2) }
  else if number_of_operands = 1 then
    { l with operand_a := cpu_ram_read l.cpu (l.cpu.PC + 1) }
  else l

/-- Calls of `cpu_PUSH`, one for each value of the list, in order. -/
def push_all (c : cpu) : List Nat → cpu
  | [] => c
  | v :: vs => push_all (cpu_PUSH c v) vs

/-- The given number of calls of `cpu_POP`, the values returned being dropped. -/
def pop_times : Nat → cpu → cpu
  | 0, c => c
  | n + 1, c => pop_times n (cpu_POP c).2

/-- A machine whose stack pointer is at address 0. -/
def sp_zero : cpu :=
  { PC := 0, FL := 0, SP := 0, reg := reg_of [], ram := ram_of [] }

/-- Subroutine at address 10 made of `RET` alone, called by `CALL R1` at
address 2; R1 = 10. -/
def call_ret_input : Loop :=
  loop_at 2 [0, 10] [0, 0, ls8.CALL, 1, 0, 0, 0, 0, 0, 0, ls8.RET]

/-- The image of the program `LDI R0,8; PRN R0; HLT`. -/
def print8 : List Nat :=
  [0b10000010, 0, 8, 0b01000111, 0, 0b00000001]

/-- A machine aggregate with arbitrary content, as before `cpu_init`. -/
def junk : cpu :=
  { PC := 77, FL := 5, SP := 3, reg := fun _ => 9, ram := fun _ => 200 }

/-- The operand variables that the case of an instruction uses as an index
into `reg` (for `LDI`, `operand_b` is an immediate value, not an index). -/
def reg_operands (l : Loop) : Option Instr → List Nat
  | some .LDI | some .PRN | some .PUSH | some .POP | some .NOT | some .CALL
  | some .JMP | some .JEQ | some .JNE | some .JGE | some .JGT | some .JLE
  | some .JLT => [l.operand_a]
  | some .MUL | some .ADD | some .MOD | some .CMP | some .AND | some .OR
  | some .XOR | some .SHL | some .SHR => [l.operand_a, l.operand_b]
  | some .RET | some .HLT | none => []

/-- Program `PUSH R1` with R1 = 42, the flags holding 4. -/
def push_input : Loop :=
  { cpu := { PC := 0, FL := 4, SP := 0xF4, reg := reg_of [0, 42], ram := ram_of [ls8.PUSH, 1] },
    running := true, operand_a := 0, operand_b := 0, out := [] }

/-- A byte that is no opcode of the LS-8 table, with two padding bytes; its
two high bits are 11. -/
def unknown_input : Loop :=
  { cpu := { PC := 0, FL := 2, SP := 0xF4, reg := reg_of [1, 2, 3],
             ram := ram_of [0b11000000, 0, 0] },
    running := true, operand_a := 0, operand_b := 0, out := [] }

/-- Program `JMP R1` with R1 = 1, for which `reg[1] - 2` underflows. -/
def jmp_input : Loop :=
  loop_at 0 [0, 1] [ls8.JMP, 1]

/-- Program `LDI 8,5`: the operand byte naming the register is 8. -/
def ldi_r8 : Loop :=
  loop_at 0 [0] [ls8.LDI, 8, 5]

/-- The operand variables that the case of an instruction really uses as an
index into `reg` in the given state: `case MOD` indexes nothing when its guard
trips, and a conditional jump calls `cpu_JMP` only when its condition holds. -/
def reg_accessed (l : Loop) : Option Instr → List Nat
  | some .LDI | some .PRN | some .PUSH | some .POP | some .NOT | some .CALL
  | some .JMP => [l.operand_a]
  | some .MUL | some .ADD | some .CMP | some .AND | some .OR
  | some .XOR | some .SHL | some .SHR => [l.operand_a, l.operand_b]
  | some .MOD => if l.operand_b = 0 then [] else [l.operand_a, l.operand_b]
  | some .JEQ => if l.cpu.FL = 1 then [l.operand_a] else []
  | some .JNE => if l.cpu.FL % 2 = 0 then [l.operand_a] else []
  | some .JGE => if l.cpu.FL = 1 ∨ l.cpu.FL = 4 then [l.operand_a] else []
  | some .JGT => if l.cpu.FL = 4 then [l.operand_a] else []
  | some .JLE => if l.cpu.FL = 2 ∨ l.cpu.FL = 0 then [l.operand_a] else []
  | some .JLT => if l.cpu.FL = 2 then [l.operand_a] else []
  | some .RET | some .HLT | none => []

/-- A loop about to fetch at address 255 a byte that is no LS-8 opcode and
whose high bits are 11. -/
def wrap_input : Loop :=
  { cpu := { PC := 255, FL := 0, SP := 0xF4, reg := reg_of [],
             ram := fun a => if a = 255 then 0b11000000 else 0 },
    running := true, operand_a := 0, operand_b := 0, out := [] }

/-- The loop `wrap_input` with PC moved to 3. -/
def wrap_output : Loop :=
  { cpu := { PC := 3, FL := 0, SP := 0xF4, reg := reg_of [],
             ram := fun a => if a = 255 then 0b11000000 else 0 },
    running := true, operand_a := 0, operand_b := 0, out := [] }

/-- Registers R0 = 0b10110101 and R1 = 8. -/
def regs_shift8 : cpu :=
  { PC := 0, FL := 0, SP := 0xF4, reg := reg_of [0b10110101, 8], ram := ram_of [] }

/-- The orderings of x and y under which a conditional jump that follows a
`CMP` of registers holding x and y is taken, as the behaviour is described for
the pair CMP and jump. -/
def cmp_jump_cond : Instr → Nat → Nat → Prop
  | .JEQ, x, y => x = y
  | .JNE, x, y => x ≠ y
  | .JGT, x, y => x < y
  | .JLT, x, y => x > y
  | .JGE, x, y => x ≤ y
  | .JLE, x, y => x > y
  | _, _, _ => False

/-- Program `CMP R0,R1; JGT R2` with R0 = 3, R1 = 5 and R2 = 9. -/
def cmp_jgt_input : Loop :=
  loop_at 0 [3, 5, 9] [ls8.CMP, 0, 1, ls8.JGT, 2]

/-- The values returned by the given number of calls of `cpu_POP`, in order. -/
def pop_values : Nat → cpu → List Nat
  | 0, _ => []
  | n + 1, c => (cpu_POP c).1 :: pop_values n (cpu_POP c).2

/-- What a step that returned `l1` from `l` has done with the registers named by
the operand variables a and b of its case i, n being the operand count: no
register other than register a is written, and what the case reads, writes,
prints, stores or jumps to is the content of registers a and b themselves. -/
def register_use (i : Option Instr) (a b n : Nat) (l l1 : Loop) : Prop :=
  (∀ j, j ≠ a → l1.cpu.reg j = l.cpu.reg j) ∧
  (i = some .LDI → l1.cpu.reg a = b % 256) ∧
  (i = some .PRN → l1.out = l.out ++ [toString (l.cpu.reg a)]) ∧
  (i = some .PUSH → l1.cpu.ram ((l.cpu.SP + 255) % 256) = l.cpu.reg a % 256) ∧
  (i = some .POP → l1.cpu.reg a = cpu_ram_read l.cpu l.cpu.SP % 256) ∧
  (i = some .MUL → l1.cpu.reg a = (l.cpu.reg a * l.cpu.reg b) % 256) ∧
  (i = some .ADD → l1.cpu.reg a = (l.cpu.reg a + l.cpu.reg b) % 256) ∧
  (i = some .MOD → b ≠ 0 → l1.cpu.reg a = (l.cpu.reg a % l.cpu.reg b) % 256) ∧
  (i = some .CMP → l1.cpu.FL =
    if l.cpu.reg a = l.cpu.reg b then 1 else if l.cpu.reg a < l.cpu.reg b then 4 else 2) ∧
  (i = some .AND → l1.cpu.reg a = (l.cpu.reg a &&& l.cpu.reg b) % 256) ∧
  (i = some .NOT → l1.cpu.reg a = (255 - l.cpu.reg a) % 256) ∧
  (i = some .OR → l1.cpu.reg a = (l.cpu.reg a ||| l.cpu.reg b) % 256) ∧
  (i = some .XOR → l1.cpu.reg a = (l.cpu.reg a ^^^ l.cpu.reg b) % 256) ∧
  (i = some .SHL → l1.cpu.reg a = (l.cpu.reg a <<< l.cpu.reg b) % 256) ∧
  (i = some .SHR → l1.cpu.reg a = (l.cpu.reg a >>> l.cpu.reg b) % 256) ∧
  (∀ j, i = some j → (j = .CALL ∨ j = .JMP ∨ jump_taken j l.cpu.FL) →
    l1.cpu.PC = ((l.cpu.reg a + 254) % 256 + n + 1) % 256)

/-- Program `ADD R0,R1` with R0 = 200 and R1 = 100. -/
def add_input : Loop :=
  loop_at 0 [200, 100] [ls8.ADD, 0, 1]

theorem lookup_of_mem_nodup {β : Type} (l : List (Nat × β)) (k : Nat) (v : β)
    (hn : (l.map Prod.fst).Nodup) (hm : (k, v) ∈ l) : l.lookup k = some v := by
  induction l with
  | nil => simp at hm
  | cons p t ih =>
    obtain ⟨k1, v1⟩ := p
    simp only [List.map_cons, List.nodup_cons] at hn
    rw [List.mem_cons] at hm
    rcases hm with h | h
    · injection h with h1 h2
      subst h1 h2
      simp [List.lookup]
    · have hne : k ≠ k1 := by
        rintro rfl
        exact hn.1 (List.mem_map_of_mem Prod.fst h)
      have hb : (k == k1) = false := by simpa using hne
      simp only [List.lookup, hb]
      exact ih hn.2 h

theorem mem_cases (o : Opcodes) (i : Instr) : (o.code i, i) ∈ o.cases := by
  cases i <;> simp [Opcodes.cases, Opcodes.code]

theorem dispatch_code (o : Opcodes) (hw : o.WF) (i : Instr) :
    dispatch o (o.code i) = some i :=
  lookup_of_mem_nodup _ _ _ hw.1 (mem_cases o i)

theorem code_operands (o : Opcodes) (hw : o.WF) (i : Instr) :
    o.code i >>> 6 = i.operands :=
  (hw.2 _ (mem_cases o i)).2

theorem and_ff (x : Nat) : x &&& 0xff = x % 256 :=
  Nat.and_pow_two_sub_one_eq_mod x 8

/-! ## The MOD guard (C1, C2) -/

/-- C1 (the code departs from the claim): on `MOD R0,R1` with R1 = 0 the guard
of `case MOD`, which tests the operand byte `operand_b` and not the value of
`reg[operand_b]`, does not trip; `alu` evaluates `reg[0] % reg[1]` with a zero
divisor and the step has no defined result instead of halting. -/
theorem mod_zero_value_divides :
    observe (step ls8 mod_zero_value) = .error .divByZero ∧
    mod_zero_value.cpu.reg 1 = 0 := ⟨rfl, rfl⟩

/-- C2 (the code departs from the claim): on `MOD R1,R0` with R0 = 3 and R1 = 7
the guard trips because the operand byte is 0, although the divisor is not:
the step halts, prints the diagnostic and leaves R1 = 7 instead of 7 mod 3. -/
theorem mod_by_reg0_halts :
    observe (step ls8 mod_by_reg0)
      = .ok (false, 3, 3, 7, ["Cannot divide by zero. Halting -->|"]) ∧
    mod_by_reg0.cpu.reg 0 ≠ 0 := ⟨rfl, by decide⟩

/-! ## ALU (C3, C4) -/

/-- C3: for register indices below 8, `alu` with `ALU_ADD` leaves
`reg[regA] = (x + y) mod 256` and with `ALU_MUL` leaves
`reg[regA] = (x * y) mod 256`, where x and y are the prior values of
`reg[regA]` and `reg[regB]`. -/
theorem alu_add_mul_mod256 (c : cpu) (regA regB : Nat) (hA : regA < 8) (hB : regB < 8) :
    (∃ c1, alu c .ALU_ADD regA regB = .ok c1 ∧
        c1.reg regA = (c.reg regA + c.reg regB) % 256) ∧
    (∃ c2, alu c .ALU_MUL regA regB = .ok c2 ∧
        c2.reg regA = (c.reg regA * c.reg regB) % 256) := by
  constructor
  · refine ⟨{ c with reg := fun i => if i = regA then (c.reg regA + c.reg regB) % 256 else c.reg i }, ?_, ?_⟩
    · simp [alu, reg_get, reg_set, hA, hB, bind, Except.bind]
    · simp
  · refine ⟨{ c with reg := fun i => if i = regA then (c.reg regA * c.reg regB) % 256 else c.reg i }, ?_, ?_⟩
    · simp [alu, reg_get, reg_set, hA, hB, bind, Except.bind]
    · simp

/-- Witness for C3: 200 + 100 leaves 44 in R0. -/
theorem alu_add_mul_mod256_witness :
    (0 < 8 ∧ 1 < 8) ∧
    ((∃ c1, alu regs_200_100 .ALU_ADD 0 1 = .ok c1 ∧
        c1.reg 0 = (regs_200_100.reg 0 + regs_200_100.reg 1) % 256) ∧
     (∃ c2, alu regs_200_100 .ALU_MUL 0 1 = .ok c2 ∧
        c2.reg 0 = (regs_200_100.reg 0 * regs_200_100.reg 1) % 256)) ∧
    (regs_200_100.reg 0 + regs_200_100.reg 1) % 256 = 44 :=
  ⟨by decide, alu_add_mul_mod256 regs_200_100 0 1 (by decide) (by decide), by decide⟩

/-- C4: for register indices below 8 and any prior state (so any prior FL),
`alu` with `ALU_CMP` returns a state whose FL is exactly 1 when
`reg[regA] = reg[regB]`, exactly 2 when `reg[regA] > reg[regB]`, exactly 4
when `reg[regA] < reg[regB]`; FL is therefore one of 1, 2, 4 whatever it was
before, and the registers (with memory, PC and SP) are those of the prior
state. -/
theorem alu_cmp_flags (c : cpu) (regA regB : Nat) (hA : regA < 8) (hB : regB < 8) :
    ∃ c1, alu c .ALU_CMP regA regB = .ok c1 ∧
      (c.reg regA = c.reg regB → c1.FL = 0b001) ∧
      (c.reg regA > c.reg regB → c1.FL = 0b010) ∧
      (c.reg regA < c.reg regB → c1.FL = 0b100) ∧
      (c1.FL = 0b001 ∨ c1.FL = 0b010 ∨ c1.FL = 0b100) ∧
      c1.reg = c.reg ∧ c1.ram = c.ram ∧ c1.PC = c.PC ∧ c1.SP = c.SP := by
  simp only [alu, reg_get, hA, hB, if_true, bind, Except.bind]
  rcases Nat.lt_trichotomy (c.reg regA) (c.reg regB) with h | h | h
  · have hne : c.reg regA ≠ c.reg regB := by omega
    rw [if_neg hne, if_pos h]
    refine ⟨_, rfl, ?_, ?_, ?_, ?_, rfl, rfl, rfl, rfl⟩ <;> simp <;> omega
  · rw [if_pos h]
    refine ⟨_, rfl, ?_, ?_, ?_, ?_, rfl, rfl, rfl, rfl⟩ <;> simp <;> omega
  · have hne : c.reg regA ≠ c.reg regB := by omega
    have hnl : ¬ c.reg regA < c.reg regB := by omega
    rw [if_neg hne, if_neg hnl]
    refine ⟨_, rfl, ?_, ?_, ?_, ?_, rfl, rfl, rfl, rfl⟩ <;> simp <;> omega

/-- Witness for C4: comparing R0 = 200 with R1 = 100. -/
theorem alu_cmp_flags_witness :
    (0 < 8 ∧ 1 < 8) ∧
    ∃ c1, alu regs_200_100 .ALU_CMP 0 1 = .ok c1 ∧
      (regs_200_100.reg 0 = regs_200_100.reg 1 → c1.FL = 0b001) ∧
      (regs_200_100.reg 0 > regs_200_100.reg 1 → c1.FL = 0b010) ∧
      (regs_200_100.reg 0 < regs_200_100.reg 1 → c1.FL = 0b100) ∧
      (c1.FL = 0b001 ∨ c1.FL = 0b010 ∨ c1.FL = 0b100) ∧
      c1.reg = regs_200_100.reg ∧ c1.ram = regs_200_100.ram ∧
      c1.PC = regs_200_100.PC ∧ c1.SP = regs_200_100.SP :=
  ⟨by decide, alu_cmp_flags regs_200_100 0 1 (by decide) (by decide)⟩

theorem ram_of_lt (bytes : List Nat) (h : ∀ v ∈ bytes, v < 256) (a : Nat) :
    ram_of bytes a < 256 := by
  unfold ram_of
  by_cases ha : a < bytes.length
  · rw [List.getD_eq_getElem _ _ ha]
    exact h _ (List.getElem_mem _)
  · rw [List.getD_eq_default _ _ (by omega)]
    omega

theorem reg_of_lt (vals : List Nat) (h : ∀ v ∈ vals, v < 256) (r : Nat) :
    reg_of vals r < 256 :=
  ram_of_lt vals h r

theorem ram_read_and (c : cpu) (x : Nat) :
    cpu_ram_read c (x &&& 0xff) = cpu_ram_read c x := by
  simp [cpu_ram_read, and_ff]

theorem run_JMP_ok (l0 : Loop) (h : l0.operand_a < 8) :
    run_JMP l0 = .ok { l0 with cpu :=
      { l0.cpu with PC := (l0.cpu.reg l0.operand_a + 254) % 256 } } := by
  simp [run_JMP, cpu_JMP, reg_get, h, bind, Except.bind, pure, Except.pure]

theorem fetch_eq (l : Loop) :
    fetch l = (cpu_ram_read l.cpu l.cpu.PC, cpu_ram_read l.cpu l.cpu.PC >>> 6,
      read_operands (cpu_ram_read l.cpu l.cpu.PC >>> 6) l) := by
  unfold fetch read_operands
  simp only [ram_read_and]
  split_ifs <;> rfl

theorem step_eq (o : Opcodes) (l : Loop) :
    step o l =
      match exec (read_operands (cpu_ram_read l.cpu l.cpu.PC >>> 6) l)
          (dispatch o (cpu_ram_read l.cpu l.cpu.PC)) with
      | .ok l1 => .ok (advance (cpu_ram_read l.cpu l.cpu.PC >>> 6) l1)
      | .error e => .error e := by
  simp only [step, fetch_eq]

/-- The step on a state whose byte at PC is the opcode of instruction `i`. -/
theorem step_code (o : Opcodes) (hw : o.WF) (l : Loop) (i : Instr)
    (hIR : cpu_ram_read l.cpu l.cpu.PC = o.code i) :
    step o l =
      match exec (read_operands i.operands l) (some i) with
      | .ok l1 => .ok (advance i.operands l1)
      | .error e => .error e := by
  rw [step_eq, hIR, dispatch_code o hw, code_operands o hw]

theorem read_operands_two (l : Loop) :
    read_operands 2 l = { l with operand_a := cpu_ram_read l.cpu (l.cpu.PC + 1),
                                 operand_b := cpu_ram_read l.cpu (l.cpu.PC + 2) } := rfl

theorem read_operands_one (l : Loop) :
    read_operands 1 l = { l with operand_a := cpu_ram_read l.cpu (l.cpu.PC + 1) } := rfl

theorem read_operands_zero (l : Loop) : read_operands 0 l = l := rfl

/-! ## Conditional jumps (C5) -/

/-- C5: when the byte at PC is the opcode of one of JEQ, JNE, JGE, JGT, JLE,
JLT and its operand byte r is below 8, one step returns a state whose PC is
`reg[r]` if the literal flag condition of that jump holds of the FL byte
(JEQ: FL = 1; JNE: FL even; JGE: FL = 1 or FL = 4; JGT: FL = 4; JLE: FL = 2
or FL = 0; JLT: FL = 2) and is PC + 2, in byte arithmetic, if it does not;
FL ranges over every byte. -/
theorem cond_jump_literal (o : Opcodes) (hw : o.WF) (l : Loop) (hc : l.cpu.WF)
    (i : Instr) (hi : i ∈ [Instr.JEQ, .JNE, .JGE, .JGT, .JLE, .JLT])
    (hIR : cpu_ram_read l.cpu l.cpu.PC = o.code i)
    (r : Nat) (hr : cpu_ram_read l.cpu (l.cpu.PC + 1) = r) (hr8 : r < 8) :
    ∃ l1, step o l = .ok l1 ∧
      (jump_taken i l.cpu.FL → l1.cpu.PC = l.cpu.reg r) ∧
      (¬ jump_taken i l.cpu.FL → l1.cpu.PC = (l.cpu.PC + 2) % 256) := by
  have hreg : l.cpu.reg r < 256 := hc.2.2.2.1 r
  rw [step_code o hw l i hIR]
  simp only [List.mem_cons, List.mem_singleton, List.not_mem_nil, or_false] at hi
  rcases hi with rfl | rfl | rfl | rfl | rfl | rfl <;>
  · simp only [Instr.operands, read_operands_one, exec, jump_taken, hr]
    split_ifs with hf
    · rw [run_JMP_ok _ hr8]
      refine ⟨_, rfl, fun _ => ?_, fun hn => absurd hf hn⟩
      simp only [advance]
      omega
    · refine ⟨_, rfl, fun ht => absurd ht hf, fun _ => ?_⟩
      simp [advance]

/-- Witness for C5: JLE with FL = 0, a flags byte CMP never produces. -/
theorem cond_jump_literal_witness :
    (ls8.WF ∧ (jump_input ls8.JLE 0).cpu.WF ∧
      Instr.JLE ∈ [Instr.JEQ, .JNE, .JGE, .JGT, .JLE, .JLT] ∧
      cpu_ram_read (jump_input ls8.JLE 0).cpu (jump_input ls8.JLE 0).cpu.PC
        = ls8.code .JLE ∧
      cpu_ram_read (jump_input ls8.JLE 0).cpu ((jump_input ls8.JLE 0).cpu.PC + 1) = 2 ∧
      2 < 8) ∧
    ∃ l1, step ls8 (jump_input ls8.JLE 0) = .ok l1 ∧
      (jump_taken .JLE (jump_input ls8.JLE 0).cpu.FL →
        l1.cpu.PC = (jump_input ls8.JLE 0).cpu.reg 2) ∧
      (¬ jump_taken .JLE (jump_input ls8.JLE 0).cpu.FL →
        l1.cpu.PC = ((jump_input ls8.JLE 0).cpu.PC + 2) % 256) :=
  have hc : (jump_input ls8.JLE 0).cpu.WF :=
    ⟨by decide, by decide, by decide, reg_of_lt _ (by decide), ram_of_lt _ (by decide)⟩
  ⟨⟨by decide, hc, by decide, rfl, rfl, by decide⟩,
    cond_jump_literal ls8 (by decide) (jump_input ls8.JLE 0) hc .JLE (by decide)
      rfl 2 rfl (by decide)⟩

/-! ## Stack (C6) -/

theorem push_all_SP (vs : List Nat) (c : cpu) :
    (push_all c vs).SP % 256 = (c.SP + 255 * vs.length) % 256 := by
  induction vs generalizing c with
  | nil => simp [push_all]
  | cons v vs ih =>
    rw [push_all, ih]
    simp only [cpu_PUSH, cpu_ram_write, List.length_cons]
    omega

theorem pop_times_SP (n : Nat) (c : cpu) :
    (pop_times n c).SP % 256 = (c.SP + n) % 256 := by
  induction n generalizing c with
  | zero => simp [pop_times]
  | succ n ih =>
    rw [pop_times, ih]
    simp only [cpu_POP]
    omega

theorem push_all_SP_lt (vs : List Nat) (c : cpu) (h : c.SP < 256) :
    (push_all c vs).SP < 256 := by
  induction vs generalizing c with
  | nil => simpa [push_all] using h
  | cons v vs ih =>
    rw [push_all]
    apply ih
    simp only [cpu_PUSH, cpu_ram_write]
    omega

theorem pop_times_SP_lt (n : Nat) (c : cpu) (h : c.SP < 256) :
    (pop_times n c).SP < 256 := by
  induction n generalizing c with
  | zero => simpa [pop_times] using h
  | succ n ih =>
    rw [pop_times]
    apply ih
    simp only [cpu_POP]
    omega

/-- C6: for a state whose SP is a byte and a byte v, `cpu_POP` right after
`cpu_PUSH(v)` returns v and leaves SP at its value before the push; and any
number of calls of `cpu_PUSH` (the values of `vs`, in order) followed by as
many calls of `cpu_POP` leaves SP at its starting value, wrapping included. -/
theorem push_pop_restores (c : cpu) (hSP : c.SP < 256) (v : Nat) (hv : v < 256) :
    (cpu_POP (cpu_PUSH c v)).1 = v ∧ (cpu_POP (cpu_PUSH c v)).2.SP = c.SP ∧
    ∀ vs : List Nat, (pop_times vs.length (push_all c vs)).SP = c.SP := by
  refine ⟨?_, ?_, ?_⟩
  · simp only [cpu_POP, cpu_PUSH, cpu_ram_write, cpu_ram_read, Nat.mod_mod, if_true]
    omega
  · simp only [cpu_POP, cpu_PUSH, cpu_ram_write]
    omega
  · intro vs
    have h1 := pop_times_SP vs.length (push_all c vs)
    have h2 := push_all_SP vs c
    have h3 := pop_times_SP_lt vs.length _ (push_all_SP_lt vs c hSP)
    omega

/-- Witness for C6: a push at SP = 0 wraps to address 255. -/
theorem push_pop_restores_witness :
    (sp_zero.SP < 256 ∧ 7 < 256) ∧
    ((cpu_POP (cpu_PUSH sp_zero 7)).1 = 7 ∧ (cpu_POP (cpu_PUSH sp_zero 7)).2.SP = sp_zero.SP ∧
      ∀ vs : List Nat, (pop_times vs.length (push_all sp_zero vs)).SP = sp_zero.SP) ∧
    (cpu_PUSH sp_zero 7).SP = 255 :=
  ⟨by decide, push_pop_restores sp_zero (by decide) 7 (by decide), by decide⟩

/-! ## CALL and RET (C7) -/

theorem step_RET (o : Opcodes) (hw : o.WF) (l : Loop)
    (hIR : cpu_ram_read l.cpu l.cpu.PC = o.code .RET) :
    step o l = .ok (advance 0
      { l with cpu := { (cpu_POP l.cpu).2 with PC := (cpu_POP l.cpu).1 } }) := by
  rw [step_code o hw l .RET hIR]
  simp only [Instr.operands, read_operands_zero, exec]
  rfl

/-- C7: from a state with PC = p whose byte at p is CALL, whose operand byte
r is below 8, where `reg[r] = t`, the byte at t is RET and the stack slot
(SP - 1) mod 256 written by the call is not address t, two steps (the CALL,
which lands on t, then the RET) leave PC = (p + 2) mod 256 and SP at its value
before the call, and halt nothing. -/
theorem call_ret_resumes (o : Opcodes) (hw : o.WF) (l : Loop) (hc : l.cpu.WF)
    (p r t : Nat) (hp : l.cpu.PC = p)
    (hCALL : cpu_ram_read l.cpu p = o.CALL)
    (hr : cpu_ram_read l.cpu (p + 1) = r) (hr8 : r < 8)
    (ht : l.cpu.reg r = t) (hRET : cpu_ram_read l.cpu t = o.RET)
    (hslot : (l.cpu.SP + 255) % 256 ≠ t) :
    ∃ l1 l2, step o l = .ok l1 ∧ l1.cpu.PC = t ∧ step o l1 = .ok l2 ∧
      l2.cpu.PC = (p + 2) % 256 ∧ l2.cpu.SP = l.cpu.SP ∧ l2.running = l.running := by
  obtain ⟨hPC, -, hSP, hreg, -⟩ := hc
  have ht256 : t < 256 := ht ▸ hreg r
  subst hp
  have h1 : step o l = .ok (advance 1
      { l with operand_a := r,
               cpu := { cpu_PUSH l.cpu (l.cpu.PC + 1) with PC := (t + 254) % 256 } }) := by
    rw [step_code o hw l .CALL hCALL]
    simp only [Instr.operands, read_operands_one, exec, hr]
    rw [run_JMP_ok _ hr8]
    simp only [cpu_PUSH, cpu_ram_write, ht]
  have hPC1 : (advance 1
      { l with operand_a := r,
               cpu := { cpu_PUSH l.cpu (l.cpu.PC + 1) with PC := (t + 254) % 256 } }).cpu.PC
      = t := by
    simp only [advance]
    omega
  have hIR2 : cpu_ram_read (advance 1
      { l with operand_a := r,
               cpu := { cpu_PUSH l.cpu (l.cpu.PC + 1) with PC := (t + 254) % 256 } }).cpu
      (advance 1
      { l with operand_a := r,
               cpu := { cpu_PUSH l.cpu (l.cpu.PC + 1) with PC := (t + 254) % 256 } }).cpu.PC
      = o.code .RET := by
    rw [hPC1]
    simp only [advance, cpu_PUSH, cpu_ram_write, cpu_ram_read, Nat.mod_mod] at hRET ⊢
    rw [if_neg (by omega)]
    exact hRET
  refine ⟨_, _, h1, hPC1, step_RET o hw _ hIR2, ?_, ?_, ?_⟩
  · simp only [advance, cpu_POP, cpu_PUSH, cpu_ram_write, cpu_ram_read, Nat.mod_mod, if_true]
    omega
  · simp only [advance, cpu_POP, cpu_PUSH, cpu_ram_write]
    omega
  · simp only [advance]

/-- Witness for C7: a CALL at address 2 to a subroutine at address 10 that is
a lone RET resumes at address 4. -/
theorem call_ret_resumes_witness :
    (ls8.WF ∧ call_ret_input.cpu.WF ∧ call_ret_input.cpu.PC = 2 ∧
      cpu_ram_read call_ret_input.cpu 2 = ls8.CALL ∧
      cpu_ram_read call_ret_input.cpu (2 + 1) = 1 ∧ 1 < 8 ∧
      call_ret_input.cpu.reg 1 = 10 ∧ cpu_ram_read call_ret_input.cpu 10 = ls8.RET ∧
      (call_ret_input.cpu.SP + 255) % 256 ≠ 10) ∧
    (∃ l1 l2, step ls8 call_ret_input = .ok l1 ∧ l1.cpu.PC = 10 ∧ step ls8 l1 = .ok l2 ∧
      l2.cpu.PC = (2 + 2) % 256 ∧ l2.cpu.SP = call_ret_input.cpu.SP ∧
      l2.running = call_ret_input.running) ∧
    (2 + 2) % 256 = 4 :=
  have hc : call_ret_input.cpu.WF :=
    ⟨by decide, by decide, by decide, reg_of_lt _ (by decide), ram_of_lt _ (by decide)⟩
  ⟨⟨by decide, hc, rfl, rfl, rfl, by decide, rfl, rfl, by decide⟩,
    call_ret_resumes ls8 (by decide) call_ret_input hc 2 1 10 rfl rfl rfl (by decide)
      rfl rfl (by decide),
    by decide⟩

/-! ## Running a program (C8) -/

theorem step_LDI (o : Opcodes) (hw : o.WF) (l : Loop)
    (hIR : cpu_ram_read l.cpu l.cpu.PC = o.code .LDI)
    (ha : cpu_ram_read l.cpu (l.cpu.PC + 1) < 8) :
    ∃ l1, step o l = .ok l1 ∧ l1.cpu.ram = l.cpu.ram ∧ l1.cpu.SP = l.cpu.SP ∧
      l1.cpu.FL = l.cpu.FL ∧ l1.cpu.PC = (l.cpu.PC + 3) % 256 ∧
      l1.cpu.reg = (fun i => if i = cpu_ram_read l.cpu (l.cpu.PC + 1)
        then cpu_ram_read l.cpu (l.cpu.PC + 2) % 256 else l.cpu.reg i) ∧
      l1.running = l.running ∧ l1.out = l.out := by
  rw [step_code o hw l .LDI hIR]
  simp only [Instr.operands, read_operands_two, exec, reg_set, ha, if_true, bind,
    Except.bind, pure, Except.pure]
  exact ⟨_, rfl, rfl, rfl, rfl, rfl, rfl, rfl, rfl⟩

theorem step_PRN (o : Opcodes) (hw : o.WF) (l : Loop)
    (hIR : cpu_ram_read l.cpu l.cpu.PC = o.code .PRN)
    (ha : cpu_ram_read l.cpu (l.cpu.PC + 1) < 8) :
    ∃ l1, step o l = .ok l1 ∧ l1.cpu.ram = l.cpu.ram ∧ l1.cpu.SP = l.cpu.SP ∧
      l1.cpu.FL = l.cpu.FL ∧ l1.cpu.PC = (l.cpu.PC + 2) % 256 ∧
      l1.cpu.reg = l.cpu.reg ∧ l1.running = l.running ∧
      l1.out = l.out ++ [toString (l.cpu.reg (cpu_ram_read l.cpu (l.cpu.PC + 1)))] := by
  rw [step_code o hw l .PRN hIR]
  simp only [Instr.operands, read_operands_one, exec, reg_get, ha, if_true, bind,
    Except.bind, pure, Except.pure]
  exact ⟨_, rfl, rfl, rfl, rfl, rfl, rfl, rfl, rfl⟩

theorem step_HLT (o : Opcodes) (hw : o.WF) (l : Loop)
    (hIR : cpu_ram_read l.cpu l.cpu.PC = o.code .HLT) :
    ∃ l1, step o l = .ok l1 ∧ l1.cpu.ram = l.cpu.ram ∧ l1.cpu.SP = l.cpu.SP ∧
      l1.cpu.FL = l.cpu.FL ∧ l1.cpu.PC = (l.cpu.PC + 1) % 256 ∧
      l1.cpu.reg = l.cpu.reg ∧ l1.running = false ∧ l1.out = l.out := by
  rw [step_code o hw l .HLT hIR]
  simp only [Instr.operands, read_operands_zero, exec, pure, Except.pure]
  exact ⟨_, rfl, rfl, rfl, rfl, rfl, rfl, rfl, rfl⟩

theorem loop_halted (o : Opcodes) (fuel : Nat) (l : Loop) (h : l.running = false) :
    loop o fuel l = .ok l := by
  cases fuel with
  | zero => rfl
  | succ n => simp [loop, h]

theorem loop_step (o : Opcodes) (fuel : Nat) (l l1 : Loop) (h : l.running = true)
    (hs : step o l = .ok l1) : loop o (fuel + 1) l = loop o fuel l1 := by
  simp [loop, h, hs]

/-- C8: for any opcode table that gives LDI, PRN and HLT the bytes 0b10000010,
0b01000111 and 0b00000001, `cpu_run` on the machine made by `cpu_init` (from
any prior content) and loaded with `LDI R0,8; PRN R0; HLT` at addresses 0..5
returns after three iterations, halted, having written the single line "8"
and with `reg[0] = 8`; after two iterations it is still running; more fuel
than three iterations changes nothing. -/
theorem run_print8 (o : Opcodes) (hw : o.WF) (hLDI : o.LDI = 0b10000010)
    (hPRN : o.PRN = 0b01000111) (hHLT : o.HLT = 0b00000001) (c : cpu) (a0 b0 : Nat) :
    ∃ l, cpu_run o 3 (boot c print8) a0 b0 = .ok l ∧
      l.running = false ∧ l.out = ["8"] ∧ l.cpu.reg 0 = 8 ∧
      (∃ l2, cpu_run o 2 (boot c print8) a0 b0 = .ok l2 ∧ l2.running = true) ∧
      ∀ fuel, 3 ≤ fuel → cpu_run o fuel (boot c print8) a0 b0 = .ok l := by
  obtain ⟨l1, h1, r1, -, -, p1, g1, n1, o1⟩ := step_LDI o hw
    { cpu := { boot c print8 with SP := (boot c print8).reg 7 }, running := true,
      operand_a := a0, operand_b := b0, out := [] }
    (by rw [show o.code .LDI = o.LDI from rfl, hLDI]; rfl) (by show 0 < 8; omega)
  obtain ⟨l2, h2, r2, -, -, p2, g2, n2, o2⟩ := step_PRN o hw l1
    (by unfold cpu_ram_read; rw [show o.code .PRN = o.PRN from rfl, hPRN, r1, p1]; rfl)
    (by unfold cpu_ram_read; rw [r1, p1]; show 0 < 8; omega)
  obtain ⟨l3, h3, r3, -, -, p3, g3, n3, o3⟩ := step_HLT o hw l2
    (by unfold cpu_ram_read; rw [show o.code .HLT = o.HLT from rfl, hHLT, r2, p2, r1, p1]; rfl)
  have n2t : l2.running = true := n2.trans n1
  have run3 : ∀ k, cpu_run o (k + 3) (boot c print8) a0 b0 = .ok l3 := by
    intro k
    rw [cpu_run, loop_step o _ _ l1 rfl h1, loop_step o _ _ l2 n1 h2,
      loop_step o _ _ l3 n2t h3, loop_halted o _ _ n3]
  refine ⟨l3, run3 0, n3, ?_, ?_, ⟨l2, ?_, n2t⟩, ?_⟩
  · have ha : cpu_ram_read l1.cpu (l1.cpu.PC + 1) = 0 := by
      unfold cpu_ram_read
      rw [r1, p1]
      rfl
    have hv : l1.cpu.reg 0 = 8 := by
      rw [g1]
      rfl
    rw [o3, o2, o1, ha, hv]
    show [] ++ [toString 8] = ["8"]
    decide
  · rw [g3, g2, g1]
    rfl
  · rw [cpu_run, loop_step o _ _ l1 rfl h1, loop_step o _ _ l2 n1 h2]
    rfl
  · intro fuel hf
    obtain ⟨k, rfl⟩ : ∃ k, fuel = k + 3 := ⟨fuel - 3, by omega⟩
    exact run3 k

/-- Witness for C8: the LS-8 opcode table and a machine with arbitrary prior
content. -/
theorem run_print8_witness :
    (ls8.WF ∧ ls8.LDI = 0b10000010 ∧ ls8.PRN = 0b01000111 ∧ ls8.HLT = 0b00000001) ∧
    ∃ l, cpu_run ls8 3 (boot junk print8) 0 0 = .ok l ∧
      l.running = false ∧ l.out = ["8"] ∧ l.cpu.reg 0 = 8 ∧
      (∃ l2, cpu_run ls8 2 (boot junk print8) 0 0 = .ok l2 ∧ l2.running = true) ∧
      ∀ fuel, 3 ≤ fuel → cpu_run ls8 fuel (boot junk print8) 0 0 = .ok l :=
  ⟨⟨by decide, rfl, rfl, rfl⟩, run_print8 ls8 (by decide) rfl rfl rfl junk 0 0⟩

/-! ## Flags and the steps that return (C9) -/

theorem mem_of_lookup {β : Type} (l : List (Nat × β)) (k : Nat) (v : β)
    (h : l.lookup k = some v) : (k, v) ∈ l := by
  induction l with
  | nil => simp [List.lookup] at h
  | cons p t ih =>
    obtain ⟨k1, v1⟩ := p
    by_cases hk : k = k1
    · subst hk
      simp [List.lookup] at h
      subst h
      exact List.mem_cons_self _ _
    · have hb : (k == k1) = false := by simpa using hk
      simp only [List.lookup, hb] at h
      exact List.mem_cons_of_mem _ (ih h)

theorem dispatch_CMP (o : Opcodes) (IR : Nat) (h : dispatch o IR = some .CMP) :
    IR = o.CMP := by
  have hm := mem_of_lookup _ _ _ h
  simp [Opcodes.cases] at hm
  exact hm

theorem alu_frame (c : cpu) (op : alu_op) (regA regB : Nat) (hop : op ≠ .ALU_CMP)
    (hA : regA < 8) (hB : regB < 8 ∨ op = .ALU_NOT) :
    (∃ c1, alu c op regA regB = .ok c1 ∧ c1.FL = c.FL) ∨
    alu c op regA regB = .error .divByZero ∨ alu c op regA regB = .error .shiftRange := by
  cases op
  case ALU_CMP => exact absurd rfl hop
  case ALU_NOT =>
    left
    simp [alu, reg_get, reg_set, hA, bind, Except.bind]
  case ALU_MOD =>
    have hB : regB < 8 := by rcases hB with h | h; exact h; cases h
    by_cases hz : c.reg regB = 0
    · right; left
      simp [alu, reg_get, reg_set, hA, hB, hz, bind, Except.bind, throw, throwThe,
        MonadExceptOf.throw]
    · left
      simp [alu, reg_get, reg_set, hA, hB, hz, bind, Except.bind]
  case ALU_SHL =>
    have hB : regB < 8 := by rcases hB with h | h; exact h; cases h
    by_cases hz : 32 ≤ c.reg regB ∨ 2 ^ 31 ≤ c.reg regA * 2 ^ c.reg regB
    · right; right
      simp only [alu, reg_get, reg_set, hA, hB, if_true, bind, Except.bind, if_pos hz]
      rfl
    · left
      simp only [alu, reg_get, reg_set, hA, hB, if_true, bind, Except.bind, if_neg hz]
      exact ⟨_, rfl, rfl⟩
  case ALU_SHR =>
    have hB : regB < 8 := by rcases hB with h | h; exact h; cases h
    by_cases hz : 32 ≤ c.reg regB
    · right; right
      simp only [alu, reg_get, reg_set, hA, hB, if_true, bind, Except.bind, if_pos hz]
      rfl
    · left
      simp only [alu, reg_get, reg_set, hA, hB, if_true, bind, Except.bind, if_neg hz]
      exact ⟨_, rfl, rfl⟩
  all_goals
    have hB : regB < 8 := by rcases hB with h | h; exact h; cases h
    left
    simp [alu, reg_get, reg_set, hA, hB, bind, Except.bind]

theorem run_alu_frame (l : Loop) (op : alu_op) (regA regB : Nat) (hop : op ≠ .ALU_CMP)
    (hA : regA < 8) (hB : regB < 8 ∨ op = .ALU_NOT) :
    (∃ l1, run_alu l op regA regB = .ok l1 ∧ l1.cpu.FL = l.cpu.FL) ∨
    run_alu l op regA regB = .error .divByZero ∨
    run_alu l op regA regB = .error .shiftRange := by
  rcases alu_frame l.cpu op regA regB hop hA hB with ⟨c1, h1, h2⟩ | h | h
  · left
    exact ⟨{ l with cpu := c1 }, by simp [run_alu, h1, bind, Except.bind, pure, Except.pure], h2⟩
  · right; left
    simp [run_alu, h, bind, Except.bind]
  · right; right
    simp [run_alu, h, bind, Except.bind]

theorem exec_frame (l : Loop) (i : Option Instr) (hi : i ≠ some .CMP)
    (hreg : ∀ r ∈ reg_operands l i, r < 8) :
    (∃ l1, exec l i = .ok l1 ∧ l1.cpu.FL = l.cpu.FL) ∨
    exec l i = .error .divByZero ∨ exec l i = .error .shiftRange := by
  rcases i with _ | i
  · exact Or.inl ⟨l, rfl, rfl⟩
  cases i
  case CMP => exact absurd rfl hi
  case MOD =>
    simp only [reg_operands, List.mem_cons, List.mem_singleton, List.not_mem_nil, or_false,
      forall_eq_or_imp, forall_eq] at hreg
    simp only [exec]
    split_ifs with hb
    · exact Or.inl ⟨_, rfl, rfl⟩
    · exact run_alu_frame l _ _ _ (by decide) hreg.1 (Or.inl hreg.2)
  case NOT =>
    simp only [reg_operands, List.mem_singleton, forall_eq] at hreg
    exact run_alu_frame l _ _ _ (by decide) hreg (Or.inr rfl)
  case MUL | ADD | AND | OR | XOR | SHL | SHR =>
    simp only [reg_operands, List.mem_cons, List.mem_singleton, List.not_mem_nil, or_false,
      forall_eq_or_imp, forall_eq] at hreg
    exact run_alu_frame l _ _ _ (by decide) hreg.1 (Or.inl hreg.2)
  case RET | HLT => exact Or.inl ⟨_, rfl, rfl⟩
  case CALL =>
    simp only [reg_operands, List.mem_singleton, forall_eq] at hreg
    left
    simp only [exec]
    rw [run_JMP_ok { l with cpu := cpu_PUSH l.cpu (l.cpu.PC + 1) } hreg]
    exact ⟨_, rfl, rfl⟩
  all_goals
    simp only [reg_operands, List.mem_singleton, forall_eq] at hreg
    left
    simp only [exec, reg_get, reg_set, hreg, if_true, bind, Except.bind, pure, Except.pure]
    try rw [run_JMP_ok _ hreg]
    try split_ifs
    all_goals exact ⟨_, rfl, rfl⟩

/-- Frame of FL over the steps that return: when the byte at PC is not the
opcode of CMP and the operand variables that the dispatched case uses as
register indices are below 8, one step returns a state whose FL equals the
prior FL; the only other outcomes are the two executions of `alu` for which C
defines no result (`%` with a zero divisor, a shift by 32 or more or past the
sign bit), where no state is returned at all. -/
theorem non_cmp_keeps_flags (o : Opcodes) (l : Loop)
    (hIR : cpu_ram_read l.cpu l.cpu.PC ≠ o.CMP)
    (hreg : ∀ r ∈ reg_operands (read_operands (cpu_ram_read l.cpu l.cpu.PC >>> 6) l)
      (dispatch o (cpu_ram_read l.cpu l.cpu.PC)), r < 8) :
    (∃ l1, step o l = .ok l1 ∧ l1.cpu.FL = l.cpu.FL) ∨
    step o l = .error .divByZero ∨ step o l = .error .shiftRange := by
  have hi : dispatch o (cpu_ram_read l.cpu l.cpu.PC) ≠ some .CMP :=
    fun h => hIR (dispatch_CMP o _ h)
  have hcpu : (read_operands (cpu_ram_read l.cpu l.cpu.PC >>> 6) l).cpu = l.cpu := by
    unfold read_operands
    split_ifs <;> rfl
  rw [step_eq]
  rcases exec_frame _ _ hi hreg with ⟨l1, h1, h2⟩ | h | h
  · left
    rw [h1]
    exact ⟨_, rfl, by rw [← hcpu, ← h2]; rfl⟩
  · right; left
    rw [h]
  · right; right
    rw [h]

/-- The frame of FL at `PUSH R1` with FL = 4: the step returns a state with
FL = 4. -/
theorem non_cmp_keeps_flags_witness :
    (cpu_ram_read push_input.cpu push_input.cpu.PC ≠ ls8.CMP ∧
      ∀ r ∈ reg_operands
        (read_operands (cpu_ram_read push_input.cpu push_input.cpu.PC >>> 6) push_input)
        (dispatch ls8 (cpu_ram_read push_input.cpu push_input.cpu.PC)), r < 8) ∧
    ((∃ l1, step ls8 push_input = .ok l1 ∧ l1.cpu.FL = push_input.cpu.FL) ∨
      step ls8 push_input = .error .divByZero ∨
      step ls8 push_input = .error .shiftRange) ∧
    observe (step ls8 push_input) = .ok (true, 2, 0, 42, []) :=
  have h1 : cpu_ram_read push_input.cpu push_input.cpu.PC ≠ ls8.CMP := by decide
  have h2 : ∀ r ∈ reg_operands
      (read_operands (cpu_ram_read push_input.cpu push_input.cpu.PC >>> 6) push_input)
      (dispatch ls8 (cpu_ram_read push_input.cpu push_input.cpu.PC)), r < 8 := by decide
  ⟨⟨h1, h2⟩, non_cmp_keeps_flags ls8 push_input h1 h2, rfl⟩

theorem dispatch_none (o : Opcodes) (IR : Nat) (h : ∀ i, IR ≠ o.code i) :
    dispatch o IR = none := by
  cases hd : dispatch o IR with
  | none => rfl
  | some i =>
    have hm := mem_of_lookup _ _ _ hd
    simp only [Opcodes.cases, List.mem_cons, List.mem_singleton, List.not_mem_nil,
      Prod.mk.injEq, or_false] at hm
    exfalso
    rcases hm with ⟨h1, h2⟩ | ⟨h1, h2⟩ | ⟨h1, h2⟩ | ⟨h1, h2⟩ | ⟨h1, h2⟩ | ⟨h1, h2⟩ |
      ⟨h1, h2⟩ | ⟨h1, h2⟩ | ⟨h1, h2⟩ | ⟨h1, h2⟩ | ⟨h1, h2⟩ | ⟨h1, h2⟩ | ⟨h1, h2⟩ |
      ⟨h1, h2⟩ | ⟨h1, h2⟩ | ⟨h1, h2⟩ | ⟨h1, h2⟩ | ⟨h1, h2⟩ | ⟨h1, h2⟩ | ⟨h1, h2⟩ |
      ⟨h1, h2⟩ | ⟨h1, h2⟩ | ⟨h1, h2⟩ | ⟨h1, h2⟩ <;>
    exact h i (by rw [h1, h2]; rfl)

/-- C10: when the byte IR at PC is the opcode of no case of the switch, one
step returns a state with the registers, the memory, FL, SP, `running` and
the output of the prior state, whose PC is `PC + (IR >> 6) + 1` in byte
arithmetic. -/
theorem unknown_opcode_skipped (o : Opcodes) (l : Loop)
    (h : ∀ i, cpu_ram_read l.cpu l.cpu.PC ≠ o.code i) :
    ∃ l1, step o l = .ok l1 ∧ l1.cpu.reg = l.cpu.reg ∧ l1.cpu.ram = l.cpu.ram ∧
      l1.cpu.FL = l.cpu.FL ∧ l1.cpu.SP = l.cpu.SP ∧ l1.running = l.running ∧
      l1.out = l.out ∧
      l1.cpu.PC = (l.cpu.PC + (cpu_ram_read l.cpu l.cpu.PC >>> 6) + 1) % 256 := by
  have hcpu : (read_operands (cpu_ram_read l.cpu l.cpu.PC >>> 6) l).cpu = l.cpu := by
    unfold read_operands
    split_ifs <;> rfl
  have hrun : (read_operands (cpu_ram_read l.cpu l.cpu.PC >>> 6) l).running = l.running := by
    unfold read_operands
    split_ifs <;> rfl
  have hout : (read_operands (cpu_ram_read l.cpu l.cpu.PC >>> 6) l).out = l.out := by
    unfold read_operands
    split_ifs <;> rfl
  rw [step_eq, dispatch_none o _ h]
  refine ⟨_, rfl, ?_, ?_, ?_, ?_, ?_, ?_, ?_⟩ <;> simp only [advance, hcpu, hrun, hout]

/-- Witness for C10: the byte 0b11000000, whose high bits give three operands,
moves PC from 0 to 4 and changes nothing else. -/
theorem unknown_opcode_skipped_witness :
    (∀ i, cpu_ram_read unknown_input.cpu unknown_input.cpu.PC ≠ ls8.code i) ∧
    (∃ l1, step ls8 unknown_input = .ok l1 ∧ l1.cpu.reg = unknown_input.cpu.reg ∧
      l1.cpu.ram = unknown_input.cpu.ram ∧ l1.cpu.FL = unknown_input.cpu.FL ∧
      l1.cpu.SP = unknown_input.cpu.SP ∧ l1.running = unknown_input.running ∧
      l1.out = unknown_input.out ∧
      l1.cpu.PC = (unknown_input.cpu.PC +
        (cpu_ram_read unknown_input.cpu unknown_input.cpu.PC >>> 6) + 1) % 256) ∧
    (unknown_input.cpu.PC +
      (cpu_ram_read unknown_input.cpu unknown_input.cpu.PC >>> 6) + 1) % 256 = 4 :=
  have h : ∀ i, cpu_ram_read unknown_input.cpu unknown_input.cpu.PC ≠ ls8.code i := by
    intro i
    cases i <;> decide
  ⟨h, unknown_opcode_skipped ls8 unknown_input h, by decide⟩

/-! ## The MOD guard for any opcode table -/

/-- The three behaviours of `case MOD`, for any opcode table: the guard looks
at the operand byte b, so it halts whenever b is register index 0, divides by
zero when `reg[b] = 0` with b not 0, and computes the remainder otherwise. -/
theorem step_MOD_guard (o : Opcodes) (hw : o.WF) (l : Loop)
    (hIR : cpu_ram_read l.cpu l.cpu.PC = o.code .MOD) (a b : Nat)
    (ha : cpu_ram_read l.cpu (l.cpu.PC + 1) = a) (hb : cpu_ram_read l.cpu (l.cpu.PC + 2) = b)
    (ha8 : a < 8) (hb8 : b < 8) :
    (b = 0 → ∃ l1, step o l = .ok l1 ∧ l1.running = false ∧ l1.cpu.reg = l.cpu.reg) ∧
    (b ≠ 0 → l.cpu.reg b = 0 → step o l = .error .divByZero) ∧
    (b ≠ 0 → l.cpu.reg b ≠ 0 → ∃ l1, step o l = .ok l1 ∧ l1.running = l.running ∧
      l1.cpu.reg a = (l.cpu.reg a % l.cpu.reg b) % 256 ∧
      l1.cpu.PC = (l.cpu.PC + 3) % 256) := by
  rw [step_code o hw l .MOD hIR]
  simp only [Instr.operands, read_operands_two, exec, ha, hb]
  refine ⟨fun h0 => ?_, fun h0 hz => ?_, fun h0 hz => ?_⟩
  · rw [if_pos h0]
    exact ⟨_, rfl, rfl, rfl⟩
  · rw [if_neg h0]
    simp [run_alu, alu, reg_get, ha8, hb8, hz, bind, Except.bind, throw, throwThe,
      MonadExceptOf.throw]
  · rw [if_neg h0]
    simp only [run_alu, alu, reg_get, reg_set, ha8, hb8, hz, if_true, if_false, bind,
      Except.bind, pure, Except.pure]
    refine ⟨_, rfl, rfl, ?_, rfl⟩
    simp [advance]

/-! ## Unconditional jump (C11) -/

/-- C11: when the byte at PC is the opcode of JMP and its operand byte r is
below 8, one step returns a state whose PC is exactly `reg[r]`, for every byte
value of `reg[r]`; `cpu_JMP` leaves the intermediate PC `(reg[r] - 2) mod 256`
(254 and 255 for `reg[r]` 0 and 1) and the advance by 2 of the loop cancels
the bias. -/
theorem jmp_lands_on_target (o : Opcodes) (hw : o.WF) (l : Loop) (r : Nat)
    (hIR : cpu_ram_read l.cpu l.cpu.PC = o.code .JMP)
    (hr : cpu_ram_read l.cpu (l.cpu.PC + 1) = r) (hr8 : r < 8)
    (hreg : l.cpu.reg r < 256) :
    ∃ c1 l1, cpu_JMP l.cpu r = .ok c1 ∧ c1.PC = (l.cpu.reg r + 254) % 256 ∧
      step o l = .ok l1 ∧ l1.cpu.PC = l.cpu.reg r := by
  refine ⟨{ l.cpu with PC := (l.cpu.reg r + 254) % 256 },
    advance 1 { l with operand_a := r, cpu := { l.cpu with PC := (l.cpu.reg r + 254) % 256 } },
    ?_, rfl, ?_, ?_⟩
  · simp [cpu_JMP, reg_get, hr8, bind, Except.bind, pure, Except.pure]
  · rw [step_code o hw l .JMP hIR]
    simp only [Instr.operands, read_operands_one, exec, hr]
    rw [run_JMP_ok _ hr8]
  · simp only [advance]
    omega

/-- Witness for C11: `JMP R1` with R1 = 1, where `reg[1] - 2` underflows to
255. -/
theorem jmp_lands_on_target_witness :
    (ls8.WF ∧ cpu_ram_read jmp_input.cpu jmp_input.cpu.PC = ls8.code .JMP ∧
      cpu_ram_read jmp_input.cpu (jmp_input.cpu.PC + 1) = 1 ∧ 1 < 8 ∧
      jmp_input.cpu.reg 1 < 256) ∧
    (∃ c1 l1, cpu_JMP jmp_input.cpu 1 = .ok c1 ∧
      c1.PC = (jmp_input.cpu.reg 1 + 254) % 256 ∧
      step ls8 jmp_input = .ok l1 ∧ l1.cpu.PC = jmp_input.cpu.reg 1) ∧
    (jmp_input.cpu.reg 1 + 254) % 256 = 255 ∧ jmp_input.cpu.reg 1 = 1 :=
  ⟨⟨by decide, rfl, rfl, by decide, by decide⟩,
    jmp_lands_on_target ls8 (by decide) jmp_input 1 rfl rfl (by decide) (by decide),
    by decide, rfl⟩

/-! ## Register indices are not reduced modulo 8 (C12) -/

theorem exec_regIndex (l : Loop) (i : Option Instr) :
    exec l i = .error .regIndex ↔ ∃ r ∈ reg_accessed l i, 8 ≤ r := by
  rcases i with _ | i
  · simp [exec, reg_accessed, pure, Except.pure]
  cases i <;>
    simp only [exec, reg_accessed, run_alu, run_JMP, cpu_JMP, alu, reg_get, reg_set, bind,
      Except.bind, pure, Except.pure, throw, throwThe, MonadExceptOf.throw] <;>
    (try split_ifs) <;> (try simp_all)
  all_goals (split_ifs <;> simp <;> omega)

theorem step_error_iff (o : Opcodes) (l : Loop) (e : Fault) :
    step o l = .error e ↔
      exec (read_operands (cpu_ram_read l.cpu l.cpu.PC >>> 6) l)
        (dispatch o (cpu_ram_read l.cpu l.cpu.PC)) = .error e := by
  rw [step_eq]
  cases exec (read_operands (cpu_ram_read l.cpu l.cpu.PC >>> 6) l)
    (dispatch o (cpu_ram_read l.cpu l.cpu.PC)) <;> simp

theorem exec_uses_operands (l l1 : Loop) (i : Option Instr) (h : exec l i = .ok l1) :
    (∀ j, j ≠ l.operand_a → l1.cpu.reg j = l.cpu.reg j) ∧
    (i = some .LDI → l1.cpu.reg l.operand_a = l.operand_b % 256) ∧
    (i = some .PRN → l1.out = l.out ++ [toString (l.cpu.reg l.operand_a)]) ∧
    (i = some .PUSH →
      l1.cpu.ram ((l.cpu.SP + 255) % 256) = l.cpu.reg l.operand_a % 256) ∧
    (i = some .POP → l1.cpu.reg l.operand_a = cpu_ram_read l.cpu l.cpu.SP % 256) ∧
    (i = some .MUL →
      l1.cpu.reg l.operand_a = (l.cpu.reg l.operand_a * l.cpu.reg l.operand_b) % 256) ∧
    (i = some .ADD →
      l1.cpu.reg l.operand_a = (l.cpu.reg l.operand_a + l.cpu.reg l.operand_b) % 256) ∧
    (i = some .MOD → l.operand_b ≠ 0 →
      l1.cpu.reg l.operand_a = (l.cpu.reg l.operand_a % l.cpu.reg l.operand_b) % 256) ∧
    (i = some .CMP → l1.cpu.FL =
      if l.cpu.reg l.operand_a = l.cpu.reg l.operand_b then 1
      else if l.cpu.reg l.operand_a < l.cpu.reg l.operand_b then 4 else 2) ∧
    (i = some .AND →
      l1.cpu.reg l.operand_a = (l.cpu.reg l.operand_a &&& l.cpu.reg l.operand_b) % 256) ∧
    (i = some .NOT → l1.cpu.reg l.operand_a = (255 - l.cpu.reg l.operand_a) % 256) ∧
    (i = some .OR →
      l1.cpu.reg l.operand_a = (l.cpu.reg l.operand_a ||| l.cpu.reg l.operand_b) % 256) ∧
    (i = some .XOR →
      l1.cpu.reg l.operand_a = (l.cpu.reg l.operand_a ^^^ l.cpu.reg l.operand_b) % 256) ∧
    (i = some .SHL →
      l1.cpu.reg l.operand_a = (l.cpu.reg l.operand_a <<< l.cpu.reg l.operand_b) % 256) ∧
    (i = some .SHR →
      l1.cpu.reg l.operand_a = (l.cpu.reg l.operand_a >>> l.cpu.reg l.operand_b) % 256) ∧
    (∀ j, i = some j → (j = .CALL ∨ j = .JMP ∨ jump_taken j l.cpu.FL) →
      l1.cpu.PC = (l.cpu.reg l.operand_a + 254) % 256) := by
  rcases i with _ | i
  · simp only [exec, pure, Except.pure, Except.ok.injEq] at h
    subst h
    simp
  cases i <;>
    simp only [exec, run_alu, run_JMP, cpu_JMP, alu, reg_get, reg_set, bind, Except.bind,
      pure, Except.pure, throw, throwThe, MonadExceptOf.throw] at h <;>
    (try split_ifs at h) <;> (try simp only [Except.ok.injEq, reduceCtorEq] at h) <;>
    (try subst h) <;>
    simp_all [jump_taken, cpu_PUSH, cpu_ram_write, cpu_POP, cpu_ram_read]
  all_goals
    split_ifs at h <;> simp only [Except.ok.injEq, reduceCtorEq] at h <;> subst h <;> simp_all <;>
    (rw [if_neg (by omega)])

theorem step_ok_exec (o : Opcodes) (l l1 : Loop) (h : step o l = .ok l1) :
    ∃ l2, exec (read_operands (cpu_ram_read l.cpu l.cpu.PC >>> 6) l)
        (dispatch o (cpu_ram_read l.cpu l.cpu.PC)) = .ok l2 ∧
      l1 = advance (cpu_ram_read l.cpu l.cpu.PC >>> 6) l2 := by
  rw [step_eq] at h
  cases he : exec (read_operands (cpu_ram_read l.cpu l.cpu.PC >>> 6) l)
      (dispatch o (cpu_ram_read l.cpu l.cpu.PC)) with
  | error e => rw [he] at h; cases h
  | ok l2 =>
    rw [he] at h
    injection h with h
    exact ⟨l2, rfl, h.symm⟩

theorem read_operands_cpu (n : Nat) (l : Loop) : (read_operands n l).cpu = l.cpu := by
  unfold read_operands
  split_ifs <;> rfl

theorem read_operands_out (n : Nat) (l : Loop) : (read_operands n l).out = l.out := by
  unfold read_operands
  split_ifs <;> rfl


/-- C12 (counterexample): `LDI 8,5` does not write register 8 mod 8 = 0; the
store `reg[8] = 5` lies outside the 8-register file and the step returns no
state. -/
theorem ldi_r8_outside_file :
    observe (step ls8 ldi_r8) = .error .regIndex ∧
    ¬ ∃ l1, step ls8 ldi_r8 = .ok l1 ∧ l1.cpu.reg (8 % 8) = 5 := by
  have h : step ls8 ldi_r8 = .error .regIndex := rfl
  refine ⟨rfl, ?_⟩
  rintro ⟨l1, h1, -⟩
  rw [h] at h1
  cases h1

/-- C12 (amended): register operand bytes are used as they are, without a
reduction modulo 8.  With i the dispatched case, n the operand count and a, b
the operand variables after the fetch: a step is an access outside `reg[8]`
exactly when a variable its case indexes `reg` with is 8 or more; every step
that returns has used registers a and b themselves (`register_use`: LDI and
POP write register a, PRN prints it, PUSH stores it, the ALU cases combine
registers a and b into register a, CMP compares them, CALL, JMP and the taken
conditional jumps take the target from register a, and no other register is
written); and `LDI` with an operand byte below 8 does return, having written
its second operand byte to that register and to no other. -/
theorem reg_index_not_reduced (o : Opcodes) (l : Loop) (i : Option Instr) (a b n : Nat)
    (hi : dispatch o (cpu_ram_read l.cpu l.cpu.PC) = i)
    (hn : cpu_ram_read l.cpu l.cpu.PC >>> 6 = n)
    (ha : (fetch l).2.2.operand_a = a) (hb : (fetch l).2.2.operand_b = b) :
    (step o l = .error .regIndex ↔ ∃ r ∈ reg_accessed (fetch l).2.2 i, 8 ≤ r) ∧
    (∀ l1, step o l = .ok l1 → register_use i a b n l l1) ∧
    (o.WF → cpu_ram_read l.cpu l.cpu.PC = o.code .LDI →
      cpu_ram_read l.cpu (l.cpu.PC + 1) < 8 →
      ∃ l1, step o l = .ok l1 ∧
        l1.cpu.reg (cpu_ram_read l.cpu (l.cpu.PC + 1))
          = cpu_ram_read l.cpu (l.cpu.PC + 2) % 256 ∧
        ∀ j, j ≠ cpu_ram_read l.cpu (l.cpu.PC + 1) → l1.cpu.reg j = l.cpu.reg j) := by
  have hf : (fetch l).2.2 = read_operands n l := by rw [fetch_eq, hn]
  rw [hf] at ha hb
  refine ⟨?_, fun l1 h1 => ?_, fun hw hIR ha8 => ?_⟩
  · rw [step_error_iff, exec_regIndex, hf, hn, hi]
  · obtain ⟨l2, h2, rfl⟩ := step_ok_exec o l l1 h1
    rw [hn, hi] at h2
    have h3 := exec_uses_operands _ _ _ h2
    rw [ha, hb, read_operands_cpu, read_operands_out] at h3
    obtain ⟨c1, c2, c3, c4, c5, c6, c7, c8, c9, c10, c11, c12, c13, c14, c15, c16⟩ := h3
    refine ⟨c1, c2, c3, c4, c5, c6, c7, c8, c9, c10, c11, c12, c13, c14, c15, ?_⟩
    intro j hj ht
    show ((l2.cpu.PC + (cpu_ram_read l.cpu l.cpu.PC >>> 6) + 1) % 256) = _
    rw [c16 j hj ht, hn]
  · obtain ⟨l1, h1, -, -, -, -, hreg, -, -⟩ := step_LDI o hw l hIR ha8
    refine ⟨l1, h1, ?_, fun j hj => ?_⟩
    · rw [hreg]
      simp
    · rw [hreg]
      simp [hj]

/-- Witness for C12: `ADD R0,R1` reads registers 0 and 1 and writes 44 to
register 0. -/
theorem reg_index_not_reduced_witness :
    (dispatch ls8 (cpu_ram_read add_input.cpu add_input.cpu.PC) = some .ADD ∧
      cpu_ram_read add_input.cpu add_input.cpu.PC >>> 6 = 2 ∧
      (fetch add_input).2.2.operand_a = 0 ∧ (fetch add_input).2.2.operand_b = 1) ∧
    ((step ls8 add_input = .error .regIndex ↔
        ∃ r ∈ reg_accessed (fetch add_input).2.2 (some .ADD), 8 ≤ r) ∧
      (∀ l1, step ls8 add_input = .ok l1 → register_use (some .ADD) 0 1 2 add_input l1) ∧
      (ls8.WF → cpu_ram_read add_input.cpu add_input.cpu.PC = ls8.code .LDI →
        cpu_ram_read add_input.cpu (add_input.cpu.PC + 1) < 8 →
        ∃ l1, step ls8 add_input = .ok l1 ∧
          l1.cpu.reg (cpu_ram_read add_input.cpu (add_input.cpu.PC + 1))
            = cpu_ram_read add_input.cpu (add_input.cpu.PC + 2) % 256 ∧
          ∀ j, j ≠ cpu_ram_read add_input.cpu (add_input.cpu.PC + 1) →
            l1.cpu.reg j = add_input.cpu.reg j)) ∧
    observe (step ls8 add_input) = .ok (true, 3, 44, 100, []) :=
  ⟨⟨rfl, rfl, rfl, rfl⟩, reg_index_not_reduced ls8 add_input (some .ADD) 0 1 2 rfl rfl rfl rfl,
    rfl⟩

/-! ## PC stays a byte (C13) -/

/-- C13: PC is 0 after `cpu_init`, and below 256 in every state a step
returns (whatever the PC before it): the advance `PC + number_of_operands + 1`
is stored in a byte, also after the assignments made by `cpu_JMP`, whose own
result `reg[r] - 2` is below 256 as well, and by `RET`. -/
theorem pc_stays_byte (o : Opcodes) (l l1 : Loop) (h : step o l = .ok l1) (c : cpu) :
    (cpu_init c).PC = 0 ∧ l1.cpu.PC < 256 ∧
    (∀ r c1, cpu_JMP l.cpu r = .ok c1 → c1.PC < 256) := by
  refine ⟨rfl, ?_, ?_⟩
  · rw [step_eq] at h
    cases he : exec (read_operands (cpu_ram_read l.cpu l.cpu.PC >>> 6) l)
        (dispatch o (cpu_ram_read l.cpu l.cpu.PC)) with
    | error e => rw [he] at h; cases h
    | ok l2 =>
      rw [he] at h
      injection h with h
      subst h
      simp only [advance]
      omega
  · intro r c1 hj
    unfold cpu_JMP reg_get at hj
    split_ifs at hj
    · simp only [bind, Except.bind, pure, Except.pure] at hj
      injection hj with hj
      subst hj
      simp only
      omega
    · simp [bind, Except.bind] at hj

/-- Witness for C13: a step at PC = 255 that advances by 4 returns PC = 3. -/
theorem pc_stays_byte_witness :
    step ls8 wrap_input = .ok wrap_output ∧
    ((cpu_init junk).PC = 0 ∧ wrap_output.cpu.PC < 256 ∧
      (∀ r c1, cpu_JMP wrap_input.cpu r = .ok c1 → c1.PC < 256)) ∧
    wrap_input.cpu.PC = 255 ∧ wrap_output.cpu.PC = 3 :=
  ⟨rfl, pc_stays_byte ls8 wrap_input wrap_output rfl junk, rfl, rfl⟩

/-! ## Registers written by the ALU (C14) -/

/-- C14 (counterexample): `alu` with `ALU_ADD` and regA = regB = 0 on R0 = 200
leaves `reg[regB] = 144`, not 200. -/
theorem alu_add_same_register :
    regs_200_100.reg 0 = 200 ∧
    ∃ c1, alu regs_200_100 .ALU_ADD 0 0 = .ok c1 ∧ c1.reg 0 = 144 :=
  ⟨rfl, _, rfl, rfl⟩

/-- C14 (amended): for register indices below 8 with regB different from
regA, every operation of `alu` that has a defined result leaves `reg[regB]`,
and every register other than `reg[regA]`, equal to its prior value. -/
theorem alu_writes_regA_only (c : cpu) (op : alu_op) (regA regB : Nat)
    (hA : regA < 8) (hB : regB < 8) (hne : regB ≠ regA) :
    (∃ c1, alu c op regA regB = .ok c1 ∧ c1.reg regB = c.reg regB ∧
      ∀ j, j ≠ regA → c1.reg j = c.reg j) ∨
    alu c op regA regB = .error .divByZero ∨ alu c op regA regB = .error .shiftRange := by
  cases op <;>
    simp only [alu, reg_get, reg_set, hA, hB, if_true, bind, Except.bind, pure, Except.pure,
      throw, throwThe, MonadExceptOf.throw] <;>
    (try split_ifs) <;> simp_all

/-- Witness for C14: `ADD R0,R1` leaves R1 = 100. -/
theorem alu_writes_regA_only_witness :
    (0 < 8 ∧ 1 < 8 ∧ 1 ≠ 0) ∧
    ((∃ c1, alu regs_200_100 .ALU_ADD 0 1 = .ok c1 ∧ c1.reg 1 = regs_200_100.reg 1 ∧
      ∀ j, j ≠ 0 → c1.reg j = regs_200_100.reg j) ∨
    alu regs_200_100 .ALU_ADD 0 1 = .error .divByZero ∨
    alu regs_200_100 .ALU_ADD 0 1 = .error .shiftRange) ∧
    regs_200_100.reg 1 = 100 ∧
    ∃ c1, alu regs_200_100 .ALU_ADD 0 1 = .ok c1 ∧ c1.reg 0 = 44 ∧ c1.reg 1 = 100 :=
  ⟨by decide, alu_writes_regA_only regs_200_100 .ALU_ADD 0 1 (by decide) (by decide)
    (by decide), rfl, _, rfl, rfl, rfl⟩

/-! ## Initial state (C15) -/

/-- C15: whatever the aggregate held, `cpu_init` leaves every memory cell 0,
registers 0 to 6 equal to 0, register 7 equal to 0xF4, PC = 0 and FL = 0; and
`cpu_run` called on that state enters its loop, before the first fetch, with
SP = 0xF4. -/
theorem cpu_init_state (c : cpu) (o : Opcodes) (a0 b0 : Nat) :
    (∀ a, (cpu_init c).ram a = 0) ∧ (∀ r, r < 7 → (cpu_init c).reg r = 0) ∧
    (cpu_init c).reg 7 = 0xF4 ∧ (cpu_init c).PC = 0 ∧ (cpu_init c).FL = 0 ∧
    ∃ l0, cpu_run o 0 (cpu_init c) a0 b0 = .ok l0 ∧ l0.cpu.SP = 0xF4 ∧
      l0.running = true ∧ l0.cpu.ram = (cpu_init c).ram ∧ l0.cpu.reg = (cpu_init c).reg ∧
      l0.cpu.PC = 0 := by
  refine ⟨fun _ => rfl, fun r hr => ?_, rfl, rfl, rfl, _, rfl, rfl, rfl, rfl, rfl, rfl⟩
  have h7 : r ≠ 7 := by omega
  simp [cpu_init, h7]

/-! ## Operand count (C16) -/

/-- C16 (counterexample): for the instruction byte 0b11000000 the engine
decodes the operand count 3, which is none of 0, 1, 2, and advances PC by 4. -/
theorem operand_count_three :
    cpu_ram_read unknown_input.cpu unknown_input.cpu.PC = 0b11000000 ∧
    (fetch unknown_input).2.1 = 3 ∧
    observe (step ls8 unknown_input) = .ok (true, unknown_input.cpu.PC + 3 + 1, 1, 2, []) :=
  ⟨rfl, rfl, rfl⟩

/-- C16 (amended): for every instruction byte IR the operand count decoded by
the engine is `IR >> 6`, one of 0, 1, 2, 3; it is 3 exactly when IR is 192 or
more, and then no operand byte is read and, for any well-formed opcode table,
the byte is no opcode and the step advances PC by 4; the opcodes of the table
all decode to 0, 1 or 2. -/
theorem operand_count_le_three (l : Loop) (hram : ∀ a, l.cpu.ram a < 256) :
    (fetch l).2.1 = cpu_ram_read l.cpu l.cpu.PC >>> 6 ∧ (fetch l).2.1 ≤ 3 ∧
    ((fetch l).2.1 = 3 ↔ 192 ≤ cpu_ram_read l.cpu l.cpu.PC) ∧
    ((fetch l).2.1 = 3 → (fetch l).2.2 = l) ∧
    ∀ o : Opcodes, o.WF → (∀ i, o.code i >>> 6 ≤ 2) ∧
      (192 ≤ cpu_ram_read l.cpu l.cpu.PC →
        ∃ l1, step o l = .ok l1 ∧ l1.cpu.PC = (l.cpu.PC + 4) % 256) := by
  have hIR : cpu_ram_read l.cpu l.cpu.PC < 256 := hram _
  have hsh : cpu_ram_read l.cpu l.cpu.PC >>> 6 = cpu_ram_read l.cpu l.cpu.PC / 64 := by
    rw [Nat.shiftRight_eq_div_pow]
  rw [fetch_eq]
  refine ⟨rfl, ?_, ?_, ?_, ?_⟩
  · show cpu_ram_read l.cpu l.cpu.PC >>> 6 ≤ 3
    omega
  · show cpu_ram_read l.cpu l.cpu.PC >>> 6 = 3 ↔ _
    omega
  · intro h3
    show read_operands (cpu_ram_read l.cpu l.cpu.PC >>> 6) l = l
    have h3 : cpu_ram_read l.cpu l.cpu.PC >>> 6 = 3 := h3
    rw [h3]
    rfl
  · intro o hw
    have hcode : ∀ i, o.code i >>> 6 ≤ 2 := by
      intro i
      rw [code_operands o hw i]
      cases i <;> decide
    refine ⟨hcode, fun h192 => ?_⟩
    have h3 : cpu_ram_read l.cpu l.cpu.PC >>> 6 = 3 := by omega
    have hnone : ∀ i, cpu_ram_read l.cpu l.cpu.PC ≠ o.code i := by
      intro i hi
      have := hcode i
      rw [← hi, h3] at this
      omega
    rw [step_eq, dispatch_none o _ hnone, h3]
    exact ⟨_, rfl, rfl⟩

/-- Witness for C16: the byte 0b11000000 at PC = 0. -/
theorem operand_count_le_three_witness :
    (∀ a, unknown_input.cpu.ram a < 256) ∧
    ((fetch unknown_input).2.1
        = cpu_ram_read unknown_input.cpu unknown_input.cpu.PC >>> 6 ∧
      (fetch unknown_input).2.1 ≤ 3 ∧
      ((fetch unknown_input).2.1 = 3 ↔
        192 ≤ cpu_ram_read unknown_input.cpu unknown_input.cpu.PC) ∧
      ((fetch unknown_input).2.1 = 3 → (fetch unknown_input).2.2 = unknown_input) ∧
      ∀ o : Opcodes, o.WF → (∀ i, o.code i >>> 6 ≤ 2) ∧
        (192 ≤ cpu_ram_read unknown_input.cpu unknown_input.cpu.PC →
          ∃ l1, step o unknown_input = .ok l1 ∧
            l1.cpu.PC = (unknown_input.cpu.PC + 4) % 256)) :=
  have h : ∀ a, unknown_input.cpu.ram a < 256 := ram_of_lt _ (by decide)
  ⟨h, operand_count_le_three unknown_input h⟩

/-! ## SP is set once, on entry (C17) -/

/-- C18: for register indices below 8, a byte x in `reg[regA]` and a shift
amount s in `reg[regB]` of at most 8, `alu` with `ALU_SHL` leaves
`reg[regA] = (x * 2^s) mod 256` and with `ALU_SHR` leaves
`reg[regA] = x / 2^s` (rounded down); the amount is not masked, so for s = 8
both leave 0. -/
theorem shift_by_register (c : cpu) (regA regB : Nat) (hA : regA < 8) (hB : regB < 8)
    (hx : c.reg regA < 256) (hs : c.reg regB ≤ 8) :
    ∃ c1 c2, alu c .ALU_SHL regA regB = .ok c1 ∧
      c1.reg regA = (c.reg regA * 2 ^ c.reg regB) % 256 ∧
      alu c .ALU_SHR regA regB = .ok c2 ∧
      c2.reg regA = c.reg regA / 2 ^ c.reg regB ∧
      (c.reg regB = 8 → c1.reg regA = 0 ∧ c2.reg regA = 0) := by
  have hpow : 2 ^ c.reg regB ≤ 2 ^ 8 := Nat.pow_le_pow_right (by decide) hs
  have hmul : c.reg regA * 2 ^ c.reg regB ≤ 255 * 2 ^ 8 :=
    Nat.mul_le_mul (by omega) hpow
  have hno : ¬ (32 ≤ c.reg regB ∨ 2 ^ 31 ≤ c.reg regA * 2 ^ c.reg regB) := by
    norm_num at hmul ⊢
    omega
  have hno2 : ¬ 32 ≤ c.reg regB := by omega
  have hdiv : c.reg regA / 2 ^ c.reg regB < 256 :=
    lt_of_le_of_lt (Nat.div_le_self _ _) hx
  refine ⟨{ c with reg := fun i => if i = regA then (c.reg regA <<< c.reg regB) % 256
              else c.reg i },
    { c with reg := fun i => if i = regA then (c.reg regA >>> c.reg regB) % 256
              else c.reg i }, ?_, ?_, ?_, ?_, ?_⟩
  · simp only [alu, reg_get, reg_set, hA, hB, if_true, bind, Except.bind, if_neg hno]
  · simp [Nat.shiftLeft_eq]
  · simp only [alu, reg_get, reg_set, hA, hB, if_true, bind, Except.bind, if_neg hno2]
  · simp only [if_true, Nat.shiftRight_eq_div_pow]
    exact Nat.mod_eq_of_lt hdiv
  · intro h8
    simp only [if_true, Nat.shiftRight_eq_div_pow, Nat.shiftLeft_eq, h8]
    omega

/-- Witness for C18: the byte 0b10110101 shifted by 8 in either direction
leaves 0. -/
theorem shift_by_register_witness :
    (0 < 8 ∧ 1 < 8 ∧ regs_shift8.reg 0 < 256 ∧ regs_shift8.reg 1 ≤ 8) ∧
    (∃ c1 c2, alu regs_shift8 .ALU_SHL 0 1 = .ok c1 ∧
      c1.reg 0 = (regs_shift8.reg 0 * 2 ^ regs_shift8.reg 1) % 256 ∧
      alu regs_shift8 .ALU_SHR 0 1 = .ok c2 ∧
      c2.reg 0 = regs_shift8.reg 0 / 2 ^ regs_shift8.reg 1 ∧
      (regs_shift8.reg 1 = 8 → c1.reg 0 = 0 ∧ c2.reg 0 = 0)) ∧
    regs_shift8.reg 1 = 8 :=
  ⟨by decide, shift_by_register regs_shift8 0 1 (by decide) (by decide) (by decide)
    (by decide), rfl⟩

/-! ## CMP followed by a conditional jump (C19) -/

theorem step_CMP (o : Opcodes) (hw : o.WF) (l : Loop)
    (hIR : cpu_ram_read l.cpu l.cpu.PC = o.code .CMP)
    (ha : cpu_ram_read l.cpu (l.cpu.PC + 1) < 8)
    (hb : cpu_ram_read l.cpu (l.cpu.PC + 2) < 8) :
    ∃ l1, step o l = .ok l1 ∧ l1.cpu.ram = l.cpu.ram ∧ l1.cpu.reg = l.cpu.reg ∧
      l1.cpu.SP = l.cpu.SP ∧ l1.cpu.PC = (l.cpu.PC + 3) % 256 ∧
      l1.cpu.FL =
        (if l.cpu.reg (cpu_ram_read l.cpu (l.cpu.PC + 1))
            = l.cpu.reg (cpu_ram_read l.cpu (l.cpu.PC + 2)) then 1
         else if l.cpu.reg (cpu_ram_read l.cpu (l.cpu.PC + 1))
            < l.cpu.reg (cpu_ram_read l.cpu (l.cpu.PC + 2)) then 4
         else 2) := by
  rw [step_code o hw l .CMP hIR]
  simp only [Instr.operands, read_operands_two, exec, run_alu, alu, reg_get, ha, hb,
    if_true, bind, Except.bind, pure, Except.pure]
  split_ifs <;> exact ⟨_, rfl, rfl, rfl, rfl, rfl, rfl⟩

theorem step_jcc (o : Opcodes) (hw : o.WF) (l : Loop)
    (i : Instr) (hi : i ∈ [Instr.JEQ, .JNE, .JGE, .JGT, .JLE, .JLT])
    (hIR : cpu_ram_read l.cpu l.cpu.PC = o.code i)
    (hr8 : cpu_ram_read l.cpu (l.cpu.PC + 1) < 8)
    (hreg : l.cpu.reg (cpu_ram_read l.cpu (l.cpu.PC + 1)) < 256) :
    ∃ l1, step o l = .ok l1 ∧
      (jump_taken i l.cpu.FL →
        l1.cpu.PC = l.cpu.reg (cpu_ram_read l.cpu (l.cpu.PC + 1))) ∧
      (¬ jump_taken i l.cpu.FL → l1.cpu.PC = (l.cpu.PC + 2) % 256) := by
  rw [step_code o hw l i hIR]
  simp only [List.mem_cons, List.mem_singleton, List.not_mem_nil, or_false] at hi
  rcases hi with rfl | rfl | rfl | rfl | rfl | rfl <;>
  · simp only [Instr.operands, read_operands_one, exec, jump_taken]
    split_ifs with hf
    · rw [run_JMP_ok _ hr8]
      refine ⟨_, rfl, fun _ => ?_, fun hn => absurd hf hn⟩
      simp only [advance]
      omega
    · refine ⟨_, rfl, fun ht => absurd ht hf, fun _ => ?_⟩
      simp [advance]

/-- C19: when `CMP a,b` (register indices below 8, x = `reg[a]`, y = `reg[b]`)
is followed by a conditional jump with register operand r below 8, the jump
calls `cpu_JMP`, and the second step lands on `reg[r]`, exactly when: JEQ,
x = y; JNE, x differs from y; JGT, x < y; JLT, x > y; JGE, x at most y; JLE,
x > y.  Otherwise the second step lands on the byte after the jump. -/
theorem cmp_then_jump (o : Opcodes) (hw : o.WF) (l : Loop) (a b r : Nat)
    (i : Instr) (hi : i ∈ [Instr.JEQ, .JNE, .JGE, .JGT, .JLE, .JLT])
    (hCMP : cpu_ram_read l.cpu l.cpu.PC = o.code .CMP)
    (ha : cpu_ram_read l.cpu (l.cpu.PC + 1) = a) (ha8 : a < 8)
    (hb : cpu_ram_read l.cpu (l.cpu.PC + 2) = b) (hb8 : b < 8)
    (hJ : cpu_ram_read l.cpu (l.cpu.PC + 3) = o.code i)
    (hr : cpu_ram_read l.cpu (l.cpu.PC + 4) = r) (hr8 : r < 8)
    (hreg : l.cpu.reg r < 256) :
    ∃ l1 l2, step o l = .ok l1 ∧ step o l1 = .ok l2 ∧
      (jump_taken i l1.cpu.FL ↔ cmp_jump_cond i (l.cpu.reg a) (l.cpu.reg b)) ∧
      (cmp_jump_cond i (l.cpu.reg a) (l.cpu.reg b) → l2.cpu.PC = l.cpu.reg r) ∧
      (¬ cmp_jump_cond i (l.cpu.reg a) (l.cpu.reg b) →
        l2.cpu.PC = (l.cpu.PC + 5) % 256) := by
  obtain ⟨l1, h1, r1, g1, -, p1, f1⟩ := step_CMP o hw l hCMP (by rw [ha]; exact ha8)
    (by rw [hb]; exact hb8)
  rw [ha, hb] at f1
  have e3 : cpu_ram_read l1.cpu l1.cpu.PC = o.code i := by
    rw [← hJ]
    unfold cpu_ram_read
    rw [r1, p1, Nat.mod_mod]
  have e4 : cpu_ram_read l1.cpu (l1.cpu.PC + 1) = r := by
    rw [← hr]
    unfold cpu_ram_read
    rw [r1, p1]
    congr 1
    omega
  obtain ⟨l2, h2, t2, n2⟩ := step_jcc o hw l1 i hi e3 (by rw [e4]; exact hr8)
    (by rw [e4, g1]; exact hreg)
  rw [e4, g1] at t2
  have p2 : (l1.cpu.PC + 2) % 256 = (l.cpu.PC + 5) % 256 := by
    rw [p1]
    omega
  rw [p2] at n2
  have key : jump_taken i l1.cpu.FL ↔ cmp_jump_cond i (l.cpu.reg a) (l.cpu.reg b) := by
    rw [f1]
    simp only [List.mem_cons, List.mem_singleton, List.not_mem_nil, or_false] at hi
    rcases hi with rfl | rfl | rfl | rfl | rfl | rfl <;>
    · simp only [jump_taken, cmp_jump_cond]
      split_ifs <;> constructor <;> intro h <;> first | omega | contradiction
  exact ⟨l1, l2, h1, h2, key, fun hc => t2 (key.mpr hc), fun hc => n2 (fun ht => hc (key.mp ht))⟩

/-- Witness for C19: after `CMP R0,R1` with 3 < 5, `JGT R2` is taken. -/
theorem cmp_then_jump_witness :
    (ls8.WF ∧ Instr.JGT ∈ [Instr.JEQ, .JNE, .JGE, .JGT, .JLE, .JLT] ∧
      cpu_ram_read cmp_jgt_input.cpu cmp_jgt_input.cpu.PC = ls8.code .CMP ∧
      cpu_ram_read cmp_jgt_input.cpu (cmp_jgt_input.cpu.PC + 1) = 0 ∧ 0 < 8 ∧
      cpu_ram_read cmp_jgt_input.cpu (cmp_jgt_input.cpu.PC + 2) = 1 ∧ 1 < 8 ∧
      cpu_ram_read cmp_jgt_input.cpu (cmp_jgt_input.cpu.PC + 3) = ls8.code .JGT ∧
      cpu_ram_read cmp_jgt_input.cpu (cmp_jgt_input.cpu.PC + 4) = 2 ∧ 2 < 8 ∧
      cmp_jgt_input.cpu.reg 2 < 256) ∧
    (∃ l1 l2, step ls8 cmp_jgt_input = .ok l1 ∧ step ls8 l1 = .ok l2 ∧
      (jump_taken .JGT l1.cpu.FL ↔
        cmp_jump_cond .JGT (cmp_jgt_input.cpu.reg 0) (cmp_jgt_input.cpu.reg 1)) ∧
      (cmp_jump_cond .JGT (cmp_jgt_input.cpu.reg 0) (cmp_jgt_input.cpu.reg 1) →
        l2.cpu.PC = cmp_jgt_input.cpu.reg 2) ∧
      (¬ cmp_jump_cond .JGT (cmp_jgt_input.cpu.reg 0) (cmp_jgt_input.cpu.reg 1) →
        l2.cpu.PC = (cmp_jgt_input.cpu.PC + 5) % 256)) ∧
    cmp_jgt_input.cpu.reg 0 < cmp_jgt_input.cpu.reg 1 :=
  ⟨⟨by decide, by decide, rfl, rfl, by decide, rfl, by decide, rfl, rfl, by decide,
      by decide⟩,
    cmp_then_jump ls8 (by decide) cmp_jgt_input 0 1 2 .JGT (by decide) rfl rfl (by decide)
      rfl (by decide) rfl rfl (by decide) (by decide),
    by decide⟩

/-! ## The stack is last in, first out (C20) -/

theorem push_all_ram_frame (vs : List Nat) (c : cpu) (a : Nat)
    (h : ∀ k, 1 ≤ k → k ≤ vs.length → a ≠ (c.SP + 255 * k) % 256) :
    (push_all c vs).ram a = c.ram a := by
  induction vs generalizing c with
  | nil => rfl
  | cons v vs ih =>
    rw [push_all, ih]
    · have h1 := h 1 (le_refl 1) (by simp)
      simp only [cpu_PUSH, cpu_ram_write, Nat.mod_mod]
      rw [if_neg (by omega)]
    · intro k hk1 hk2
      have h2 := h (k + 1) (by omega) (by simp; omega)
      simp only [cpu_PUSH, cpu_ram_write]
      omega

theorem pop_times_ram (n : Nat) (c : cpu) : (pop_times n c).ram = c.ram := by
  induction n generalizing c with
  | zero => rfl
  | succ n ih =>
    rw [pop_times, ih]
    rfl

theorem pop_values_succ (n : Nat) (c : cpu) :
    pop_values (n + 1) c = pop_values n c ++ [(cpu_POP (pop_times n c)).1] := by
  induction n generalizing c with
  | zero => rfl
  | succ n ih =>
    rw [pop_values, ih (cpu_POP c).2]
    rfl

theorem pop_values_length (n : Nat) (c : cpu) : (pop_values n c).length = n := by
  induction n generalizing c with
  | zero => rfl
  | succ n ih => simp [pop_values, ih]

theorem pop_after_pushes (vs : List Nat) (c : cpu) (hSP : c.SP < 256) :
    (cpu_POP (pop_times vs.length (push_all c vs))).1 = (push_all c vs).ram c.SP := by
  have h1 := pop_times_SP vs.length (push_all c vs)
  have h2 := push_all_SP vs c
  have h3 : (pop_times vs.length (push_all c vs)).SP % 256 = c.SP := by omega
  simp only [cpu_POP, cpu_ram_read, pop_times_ram, h3]

theorem push_all_lifo (vs : List Nat) (c : cpu) (hSP : c.SP < 256)
    (hvs : ∀ v ∈ vs, v < 256) (hn : vs.length ≤ 256) :
    pop_values vs.length (push_all c vs) = vs.reverse := by
  induction vs generalizing c with
  | nil => rfl
  | cons v vs ih =>
    have hv : v < 256 := hvs v (List.mem_cons_self _ _)
    have hlen : vs.length ≤ 255 := by simpa using hn
    have hSP1 : (cpu_PUSH c v).SP < 256 := by
      simp only [cpu_PUSH, cpu_ram_write]
      omega
    rw [List.length_cons, pop_values_succ, push_all,
      ih (cpu_PUSH c v) hSP1 (fun w hw => hvs w (List.mem_cons_of_mem _ hw)) (by omega),
      pop_after_pushes vs (cpu_PUSH c v) hSP1, List.reverse_cons,
      push_all_ram_frame vs (cpu_PUSH c v) _ (fun k hk1 hk2 => by omega)]
    simp only [cpu_PUSH, cpu_ram_write, Nat.mod_mod, if_true]
    rw [Nat.mod_eq_of_lt hv]

theorem push_zeros_ram (m : Nat) (c : cpu) (a : Nat)
    (h : c.ram a = 0 ∨ ∃ k, 1 ≤ k ∧ k ≤ m ∧ a = (c.SP + 255 * k) % 256) :
    (push_all c (List.replicate m 0)).ram a = 0 := by
  induction m generalizing c with
  | zero =>
    rcases h with h | ⟨k, h1, h2, -⟩
    · exact h
    · omega
  | succ m ih =>
    rw [List.replicate_succ, push_all]
    apply ih
    by_cases ha : a = (c.SP + 255) % 256
    · left
      simp [cpu_PUSH, cpu_ram_write, ha]
    · rcases h with h | ⟨k, h1, h2, h3⟩
      · left
        simp only [cpu_PUSH, cpu_ram_write, Nat.mod_mod]
        rw [if_neg ha]
        exact h
      · right
        refine ⟨k - 1, ?_, ?_, ?_⟩
        · have : k ≠ 1 := by
            rintro rfl
            exact ha (by omega)
          omega
        · omega
        · simp only [cpu_PUSH, cpu_ram_write]
          omega

theorem overfull_stack_loses (c : cpu) (m : Nat) (hm : 256 ≤ m) :
    pop_values (m + 1) (push_all c (1 :: List.replicate m 0))
      ≠ (1 :: List.replicate m 0).reverse := by
  intro h
  have hlen : (1 :: List.replicate m 0).length = m + 1 := by simp
  have hSP1 : (cpu_PUSH c 1).SP < 256 := by
    simp only [cpu_PUSH, cpu_ram_write]
    omega
  have hpop := pop_after_pushes (List.replicate m 0) (cpu_PUSH c 1) hSP1
  rw [List.length_replicate] at hpop
  rw [pop_values_succ, push_all, List.reverse_cons, hpop,
    push_zeros_ram m (cpu_PUSH c 1) _ (Or.inr ⟨256, by omega, hm, by omega⟩)] at h
  have h2 := List.append_inj_right' h rfl
  simp at h2

/-- C20: for a state whose SP is a byte and a list of at most 256 bytes,
pushing the list in order with `cpu_PUSH` and then calling `cpu_POP` as many
times returns the list reversed (last in, first out), and every memory cell
other than the stack slots (SP - k) mod 256, k from 1 to the length, keeps
its value.  For every longer length there is a list of bytes for which the
pops do not return the reversed list. -/
theorem stack_lifo (c : cpu) (hSP : c.SP < 256) (vs : List Nat)
    (hvs : ∀ v ∈ vs, v < 256) (hn : vs.length ≤ 256) :
    pop_values vs.length (push_all c vs) = vs.reverse ∧
    (∀ a, (∀ k, 1 ≤ k → k ≤ vs.length → a ≠ (c.SP + 256 - k) % 256) →
      (pop_times vs.length (push_all c vs)).ram a = c.ram a) ∧
    (∀ n, 256 < n → ∃ ws : List Nat, ws.length = n ∧ (∀ w ∈ ws, w < 256) ∧
      pop_values n (push_all c ws) ≠ ws.reverse) := by
  refine ⟨push_all_lifo vs c hSP hvs hn, fun a ha => ?_, fun n hlt => ?_⟩
  · rw [pop_times_ram]
    apply push_all_ram_frame
    intro k hk1 hk2
    have := ha k hk1 hk2
    omega
  · obtain ⟨m, rfl⟩ : ∃ m, n = m + 1 := ⟨n - 1, by omega⟩
    refine ⟨1 :: List.replicate m 0, by simp, ?_, overfull_stack_loses c m (by omega)⟩
    intro w hw
    rcases List.mem_cons.mp hw with rfl | hw
    · decide
    · rw [List.eq_of_mem_replicate hw]
      decide

/-- Witness for C20: three pushes at SP = 0, which wrap to addresses 255, 254
and 253. -/
theorem stack_lifo_witness :
    (sp_zero.SP < 256 ∧ (∀ v ∈ [1, 2, 3], v < 256) ∧ [1, 2, 3].length ≤ 256) ∧
    (pop_values [1, 2, 3].length (push_all sp_zero [1, 2, 3]) = [1, 2, 3].reverse ∧
      (∀ a, (∀ k, 1 ≤ k → k ≤ [1, 2, 3].length → a ≠ (sp_zero.SP + 256 - k) % 256) →
        (pop_times [1, 2, 3].length (push_all sp_zero [1, 2, 3])).ram a = sp_zero.ram a) ∧
      (∀ n, 256 < n → ∃ ws : List Nat, ws.length = n ∧ (∀ w ∈ ws, w < 256) ∧
        pop_values n (push_all sp_zero ws) ≠ ws.reverse)) ∧
    pop_values 3 (push_all sp_zero [1, 2, 3]) = [3, 2, 1] :=
  ⟨⟨by decide, by decide, by decide⟩,
    stack_lifo sp_zero (by decide) [1, 2, 3] (by decide) (by decide), by decide⟩

end LS8
